import Mathlib

/-!
# Verification of the `operadic_consistency` core against its specification

This file shallowly embeds the core of the `operadic_consistency` Python
repository (tree-of-questions data model, validation, post-order evaluation,
placeholder substitution, JSON (de)serialization, collapse-plan machinery and
the consistency orchestrator) as executable Lean definitions, and proves the
specified properties about them.

Python dictionaries are embedded as insertion-ordered association lists
(`List (k × v)`); a dictionary built by the Python code always has distinct
keys, which appears as `Nodup` hypotheses on theorems quantifying over
arbitrary trees.  Python sets are embedded as lists used only through
membership.  Functions that can raise return `Except`; recursive traversals
that Python runs on the call stack are given explicit fuel, together with
proofs that the fuel chosen by the embedding never runs out on the inputs the
code reaches.

The modules `core/transforms.py` and `core/metrics.py` of the repository are
not part of the provided sources (only their tests and callers are); the
definitions embedding them are modelled from the specification and are marked
`Modelled from the spec:` in their doc comments.
-/

deriving instance DecidableEq for Except

namespace OperadicConsistency

/-- Node identifiers are Python ints. -/
abbrev NodeId := Int

/-- Embeds dataclass `ToQNode` of `core/toq_types.py`:
`id`, question `text`, and optional `parent` id (`None` iff root). -/
structure ToQNode where
  id : NodeId
  text : String
  parent : Option NodeId
deriving DecidableEq, Repr

/-- Embeds dataclass `ToQ` of `core/toq_types.py`.  The Python field
`nodes : Mapping[NodeId, ToQNode]` is embedded as an insertion-ordered
association list. -/
structure ToQ where
  nodes : List (NodeId × ToQNode)
  root_id : NodeId
deriving DecidableEq, Repr

namespace ToQ

/-- The keys of the `nodes` mapping, in insertion order. -/
def keys (t : ToQ) : List NodeId := t.nodes.map Prod.fst

/-- Looking a node up by id (Python `self.nodes[nid]` / `nid in self.nodes`). -/
def find (t : ToQ) (k : NodeId) : Option ToQNode := t.nodes.lookup k

/-- A Python `ToQ` has a dict for `nodes`, so its keys are distinct; this
predicate carves out the association lists that represent Python values. -/
def KeysNodup (t : ToQ) : Prop := t.keys.Nodup

instance (t : ToQ) : Decidable t.KeysNodup := by
  unfold KeysNodup; infer_instance

/-- Embeds `ToQ.children` of `core/toq_types.py`: adjacency from node id to
the list of its children, in `nodes` iteration order.  A node id is appended
to `ch[p]` exactly when its stored parent is `p` and `p` is itself a key
(the Python code guards with `if p in ch`); `ch.get(u, [])` on a non-key
yields `[]`. -/
def childrenOf (t : ToQ) (u : NodeId) : List NodeId :=
  if u ∈ t.keys then
    (t.nodes.filter (fun kv => kv.2.parent = some u)).map Prod.fst
  else []

/-- Embeds `ToQ.leaves` of `core/toq_types.py`. -/
def leaves (t : ToQ) : List NodeId :=
  t.keys.filter (fun nid => (t.childrenOf nid).isEmpty)

end ToQ

/-- The `ValueError`s raised by `ToQ.validate`, in the order the checks
appear in `core/toq_types.py`.  `fuelExhausted` is an artifact of the
embedding of the recursive DFS; it is proved unreachable. -/
inductive ValErr where
  | rootMissing (r : NodeId)
  | keyMismatch (k : NodeId) (i : NodeId)
  | missingParent (n : NodeId) (p : NodeId)
  | selfParent (n : NodeId)
  | rootParentNotNone (r : NodeId)
  | rootCountNotOne (roots : List NodeId)
  | rootMismatch (r : NodeId) (u : NodeId)
  | cycle (u v : NodeId)
  | unreachable (r : NodeId) (orphans : List NodeId)
  | fuelExhausted
deriving DecidableEq, Repr

/-- The per-node checks of `ToQ.validate` (key/id consistency, parent
existence, no self-parent), scanning entries in `nodes` order and reporting
the first violation. -/
def nodeChecks (t : ToQ) : List (NodeId × ToQNode) → Except ValErr Unit
  | [] => .ok ()
  | (nid, node) :: rest =>
    if node.id ≠ nid then .error (.keyMismatch nid node.id)
    else match node.parent with
      | some p =>
        if p ∉ t.keys then .error (.missingParent nid p)
        else if node.parent = some nid then .error (.selfParent nid)
        else nodeChecks t rest
      | none =>
        if node.parent = some nid then .error (.selfParent nid)
        else nodeChecks t rest

/-- One step of the child loop inside `validate`'s DFS (the `for v in
ch.get(u, [])` body): raise on a stacked child, skip a visited child,
otherwise recurse via `step`. -/
def childLoop (step : NodeId → List NodeId → List NodeId →
    Except ValErr (List NodeId × List NodeId)) (u : NodeId) :
    List NodeId → List NodeId → List NodeId →
    Except ValErr (List NodeId × List NodeId)
  | [], vis, stk => .ok (vis, stk)
  | c :: cs, vis, stk =>
    if c ∈ stk then .error (.cycle u c)
    else if c ∈ vis then childLoop step u cs vis stk
    else match step c vis stk with
      | .error e => .error e
      | .ok (vis', stk') => childLoop step u cs vis' stk'

/-- The recursive `dfs` of `ToQ.validate`, with the shared mutable
`visited` / `in_stack` sets threaded explicitly and fuel for the Python call
stack.  `visited.add(u)`; `in_stack.add(u)`; loop over children;
`in_stack.remove(u)`. -/
def dfsVisit (t : ToQ) : Nat → NodeId → List NodeId → List NodeId →
    Except ValErr (List NodeId × List NodeId)
  | 0, _, _, _ => .error .fuelExhausted
  | Nat.succ fuel, u, vis, stk =>
    let vis1 := if u ∈ vis then vis else u :: vis
    let stk1 := u :: stk
    match childLoop (dfsVisit t fuel) u (t.childrenOf u) vis1 stk1 with
    | .error e => .error e
    | .ok (vis2, stk2) => .ok (vis2, stk2.erase u)

/-- Insertion into a sorted list (ascending). -/
def insertSorted (x : Int) : List Int → List Int
  | [] => [x]
  | y :: ys => if x ≤ y then x :: y :: ys else y :: insertSorted x ys

/-- Ascending insertion sort — the embedding of Python `sorted` on ints
(structural, so the kernel can evaluate it). -/
def sortInts (l : List Int) : List Int := l.foldr insertSorted []

/-- The parentless node ids, in `nodes` order (`roots` in `validate`). -/
def parentlessKeys (t : ToQ) : List NodeId :=
  (t.nodes.filter (fun kv => kv.2.parent = none)).map Prod.fst

/-- Embeds `ToQ.validate` of `core/toq_types.py`: root presence, per-node
checks, unique-root checks, then a DFS from the root detecting cycles and
finally comparing the visited count with the node count (reporting the
sorted unreachable nodes). -/
def ToQ.validate (t : ToQ) : Except ValErr Unit :=
  if t.root_id ∉ t.keys then .error (.rootMissing t.root_id)
  else match nodeChecks t t.nodes with
  | .error e => .error e
  | .ok () =>
    match t.find t.root_id with
    | none => .error (.rootMissing t.root_id)
    | some rootNode =>
      if rootNode.parent ≠ none then .error (.rootParentNotNone t.root_id)
      else if parentlessKeys t ≠ [t.root_id] then
        if (parentlessKeys t).length ≠ 1 then
          .error (.rootCountNotOne (parentlessKeys t))
        else .error (.rootMismatch t.root_id ((parentlessKeys t).headD 0))
      else
        match dfsVisit t (t.nodes.length + 1) t.root_id [] [] with
        | .error e => .error e
        | .ok (vis, _) =>
          if vis.length ≠ t.nodes.length then
            .error (.unreachable t.root_id
              (sortInts (t.keys.filter (fun k => k ∉ vis))))
          else .ok ()

/-! ## Decimal representation and parsing of Python ints

`str(nid)` and `f"[A{cid}]"` use Python's decimal rendering of ints;
`int(k)` parses it back (whitespace-stripped, optional sign). -/

/-- The character for a single decimal digit. -/
def digitCh (d : Nat) : Char := Char.ofNat (48 + d)

/-- Little-endian decimal digits of `n`; fuel-structural so that the kernel
can evaluate it (`n` itself is ample fuel). -/
def natDigitsRev : Nat → Nat → List Nat
  | 0, _ => []
  | Nat.succ f, n => if n = 0 then [] else (n % 10) :: natDigitsRev f (n / 10)

/-- Decimal rendering of a natural number (no sign, no leading zeros). -/
def natRepr (n : Nat) : List Char :=
  if n = 0 then ['0'] else ((natDigitsRev n n).map digitCh).reverse

/-- Embeds Python `str(i)` for an int `i`. -/
def pyIntRepr (i : Int) : String :=
  if i < 0 then ⟨'-' :: natRepr i.natAbs⟩ else ⟨natRepr i.natAbs⟩

/-- The numeric value of a decimal digit character, if it is one. -/
def chDigit (c : Char) : Option Nat :=
  if 48 ≤ c.toNat ∧ c.toNat ≤ 57 then some (c.toNat - 48) else none

/-- Parses a nonempty all-digit character list as a natural number. -/
def parseDigits : List Char → Option Nat
  | [] => none
  | cs =>
    cs.foldl (fun acc c => do
      let a ← acc
      let d ← chDigit c
      pure (a * 10 + d)) (some 0)

/-- The tail of the digit part of a Python integer literal: digits, with a
single underscore permitted only between two digits (PEP 515). -/
def digitsURest : List Char → Bool
  | [] => true
  | c :: cs =>
    if c = '_' then
      match cs with
      | [] => false
      | d :: cs' => d.isDigit && digitsURest cs'
    else c.isDigit && digitsURest cs

/-- The digit part of a Python integer literal: a digit followed by digits
with single underscores between digits. -/
def digitsU : List Char → Bool
  | [] => false
  | c :: cs => c.isDigit && digitsURest cs

/-- Parses the digit part of a Python `int(...)` argument: checks the
underscore grouping, strips the underscores, and reads the digits. -/
def parseDigitsU (cs : List Char) : Option Nat :=
  if digitsU cs then parseDigits (cs.filter (fun c => ¬ c = '_')) else Option.none

/-- The whitespace Python `int(...)` strips from a string, restricted to
ASCII: the six ASCII whitespace characters.  Unicode whitespace lies
outside the ASCII fragment the model covers. -/
def isPyWs (c : Char) : Bool :=
  c = ' ' ∨ c = '\t' ∨ c = '\n' ∨ c = '\r' ∨ c = '\x0b' ∨ c = '\x0c'

/-- Embeds Python `int(k)` on an ASCII string key: strip surrounding
whitespace, optional sign, then decimal digits with single underscores
permitted between digits (PEP 515); `none` models `ValueError`.  Exact on
ASCII strings; Unicode digits and whitespace are outside the model, which
theorems over arbitrary keys state as an ASCII hypothesis. -/
def pyParseInt (s : String) : Option Int :=
  let cs := ((s.toList.dropWhile isPyWs).reverse.dropWhile isPyWs).reverse
  match cs with
  | '-' :: rest => (parseDigitsU rest).map (fun n => -(n : Int))
  | '+' :: rest => (parseDigitsU rest).map (fun n => (n : Int))
  | rest => (parseDigitsU rest).map (fun n => (n : Int))

/-! ## Python `str.replace` and the default substituter -/

/-- Left-to-right, non-overlapping replacement of pattern `p` by `r` on
character lists — the semantics of Python `str.replace` for a nonempty
pattern.  The fuel (one unit per character consumed) makes the recursion
structural; `s.length` fuel is exact. -/
def replaceF (p r : List Char) : Nat → List Char → List Char
  | _, [] => []
  | 0, c :: cs => c :: cs
  | Nat.succ f, c :: cs =>
    if p ≠ [] ∧ p.isPrefixOf (c :: cs) then
      r ++ replaceF p r f ((c :: cs).drop p.length)
    else
      c :: replaceF p r f cs

/-- `replaceF` at full fuel. -/
def replaceC (p r s : List Char) : List Char := replaceF p r s.length s

/-- Embeds Python `s.replace(p, r)`, including the empty-pattern case
(which interleaves `r` around every character). -/
def pyReplace (s p r : String) : String :=
  if p.isEmpty then
    ⟨r.toList ++ (s.toList.map (fun c => c :: r.toList)).flatten⟩
  else ⟨replaceC p.toList r.toList s.toList⟩

/-- The placeholder `[A<cid>]` for a child id, as written by
`default_substituter`'s f-string. -/
def placeholder (cid : NodeId) : String := "[A" ++ pyIntRepr cid ++ "]"

/-- Embeds `default_substituter` of `core/evaluate.py`: fold over the
child-answer mapping entries in order, replacing every occurrence of
`[A<cid>]` in the current string by that child's answer text. -/
def default_substituter (template : String) (child_answers : List (NodeId × String)) : String :=
  child_answers.foldl (fun out ca => pyReplace out (placeholder ca.1) ca.2) template

/-! ## The evaluator (`core/evaluate.py`) -/

/-- Embeds dataclass `Answer` of `core/interfaces.py`; the core never
inspects `meta` beyond carrying it. -/
structure Answer where
  text : String
  meta : Option String := none
deriving DecidableEq, Repr

/-- An answerer oracle: a pure function from rendered question and shared
context to an `Answer`. -/
abbrev Answerer := String → Option String → Answer

/-- A substituter: template plus child-answer mapping to rendered text. -/
abbrev Substituter := String → List (NodeId × String) → String

/-- Embeds dataclass `EvalTrace` of `core/evaluate.py` (rendered question
and answer per node, in evaluation order). -/
structure EvalTrace where
  rendered_question : List (NodeId × String)
  answer : List (NodeId × Answer)
deriving DecidableEq, Repr

/-- One step of the child loop of `_postorder`'s `dfs` (recursing into every
child in adjacency order). -/
def postLoop (step : NodeId → List NodeId × List NodeId →
    Option (List NodeId × List NodeId)) :
    List NodeId → List NodeId × List NodeId → Option (List NodeId × List NodeId)
  | [], st => some st
  | c :: cs, st =>
    match step c st with
    | none => none
    | some st' => postLoop step cs st'

/-- The recursive `dfs` of `_postorder` in `core/evaluate.py`: return early
on a visited node, else mark visited, recurse into children, then append to
the order.  Fuel stands in for the Python call stack and is proved
sufficient. -/
def postDfs (t : ToQ) : Nat → NodeId → List NodeId × List NodeId →
    Option (List NodeId × List NodeId)
  | 0, _, _ => none
  | Nat.succ fuel, n, (vis, ord) =>
    if n ∈ vis then some (vis, ord)
    else
      match postLoop (postDfs t fuel) (t.childrenOf n) (n :: vis, ord) with
      | none => none
      | some (vis2, ord2) => some (vis2, ord2 ++ [n])

/-- Embeds `_postorder` of `core/evaluate.py`: node ids in postorder
starting at the root (`none` models fuel exhaustion; proved unreachable). -/
def postorder (t : ToQ) : Option (List NodeId) :=
  (postDfs t (t.nodes.length + 1) t.root_id ([], [])).map Prod.snd

/-- Errors surfaced by the embedded `evaluate_toq`: a validation failure of
the input tree, a `KeyError` on a missing child answer, or exhaustion of the
traversal fuel (proved unreachable). -/
inductive EvErr where
  | invalid (e : ValErr)
  | keyError (n : NodeId)
  | fuelExhausted
deriving DecidableEq, Repr

/-- Gathers `{cid: answers[cid].text for cid in child_ids}`; a missing
answer models Python's `KeyError(cid)`. -/
def gatherChildAnswers (answers : List (NodeId × Answer)) :
    List NodeId → Except EvErr (List (NodeId × String))
  | [] => .ok []
  | cid :: rest =>
    match answers.lookup cid with
    | none => .error (.keyError cid)
    | some a => (gatherChildAnswers answers rest).map (fun l => (cid, a.text) :: l)

/-- The body of `evaluate_toq`'s `for nid in order` loop: gather child
answers, render (leaf as-is, internal node through the substituter), ask the
answerer, record.  Also records each answerer invocation `(question,
context)` in call order; on a raise, the invocations made before it are
still reported. -/
def evalLoop (t : ToQ) (answerer : Answerer) (sub : Substituter)
    (context : Option String) :
    List NodeId → EvalTrace → List (String × Option String) →
    Except EvErr EvalTrace × List (String × Option String)
  | [], trace, calls => (.ok trace, calls)
  | nid :: rest, trace, calls =>
    match t.find nid with
    | none => (.error (.keyError nid), calls)
    | some node =>
      let child_ids := t.childrenOf nid
      match gatherChildAnswers trace.answer child_ids with
      | .error e => (.error e, calls)
      | .ok child_ans_text =>
        let q := if child_ids.isEmpty then node.text else sub node.text child_ans_text
        let a := answerer q context
        evalLoop t answerer sub context rest
          ⟨trace.rendered_question ++ [(nid, q)], trace.answer ++ [(nid, a)]⟩
          (calls ++ [(q, context)])

/-- Embeds `evaluate_toq` of `core/evaluate.py`, additionally returning the
list of answerer invocations (question, context) in call order. -/
def evaluate_toq (t : ToQ) (answerer : Answerer) (substituter : Option Substituter)
    (context : Option String) :
    Except EvErr EvalTrace × List (String × Option String) :=
  match t.validate with
  | .error e => (.error (.invalid e), [])
  | .ok () =>
    let sub := substituter.getD default_substituter
    match postorder t with
    | none => (.error .fuelExhausted, [])
    | some order => evalLoop t answerer sub context order ⟨[], []⟩ []

/-! ## Serialization (`core/serialization.py`)

JSON-like values exchanged at the serialization boundary.  The embedding is
typed where the Python code is dynamically typed: a node field holding a
value of the wrong runtime type is rejected by the embedded parser
directly.  For `id`, `parent`, and `root_id` Python instead stores the
value and fails the subsequent validation, while a non-string `text` is
accepted by Python outright (`validate` never inspects `text`); theorems
about the parser on arbitrary inputs therefore restrict to the typed
fragment `TypedObj`, on which the embedding is exact. -/

/-- A JSON-like Python value. -/
inductive PyVal where
  | none : PyVal
  | int (i : Int) : PyVal
  | str (s : String) : PyVal
  | dict (entries : List (String × PyVal)) : PyVal
  | list (elems : List PyVal) : PyVal

/-- Embeds `toq_to_json` of `core/serialization.py`: `root_id` plus a
`nodes` object keyed by the string form of each node id. -/
def toq_to_json (t : ToQ) : List (String × PyVal) :=
  [("root_id", .int t.root_id),
   ("nodes", .dict (t.nodes.map (fun kv =>
      (pyIntRepr kv.1, .dict
        [("id", .int kv.2.id),
         ("text", .str kv.2.text),
         ("parent", match kv.2.parent with
                    | Option.none => PyVal.none
                    | some p => .int p)]))))]

/-- The `ValueError`s raised by `toq_from_json` before validation, plus the
validation errors it re-raises and the typed-model mismatches (a field whose
runtime type Python would only catch inside `validate`). -/
inductive SerErr where
  | missingRootOrNodes
  | nodesNotMapping
  | invalidKey (k : String)
  | invalidEntry (nid : NodeId)
  | missingField (field : String) (nid : NodeId)
  | fieldNotTyped (field : String) (nid : NodeId)
  | rootIdNotInt
  | validation (e : ValErr)
deriving DecidableEq, Repr

/-- Insertion into an insertion-ordered dict: replace in place if the key is
present, else append (Python `d[k] = v`). -/
def dictInsert {α β : Type} [DecidableEq α] (k : α) (v : β) :
    List (α × β) → List (α × β)
  | [] => [(k, v)]
  | (k', v') :: rest =>
    if k' = k then (k, v) :: rest else (k', v') :: dictInsert k v rest

/-- Parses one `nodes` entry of the JSON form: integer key, mapping value
with `id` and `text` (and optional `parent`), typed as the dataclass
declares. -/
def parseNodeEntry (k : String) (v : PyVal) : Except SerErr (NodeId × ToQNode) :=
  match pyParseInt k with
  | Option.none => .error (.invalidKey k)
  | some nid =>
    match v with
    | .dict m =>
      match m.lookup "id" with
      | Option.none => .error (.missingField "id" nid)
      | some (.int idv) =>
        match m.lookup "text" with
        | Option.none => .error (.missingField "text" nid)
        | some (.str textv) =>
          match m.lookup "parent" with
          | Option.none => .ok (nid, ⟨idv, textv, Option.none⟩)
          | some PyVal.none => .ok (nid, ⟨idv, textv, Option.none⟩)
          | some (.int p) => .ok (nid, ⟨idv, textv, some p⟩)
          | some _ => .error (.fieldNotTyped "parent" nid)
        | some _ => .error (.fieldNotTyped "text" nid)
      | some _ => .error (.fieldNotTyped "id" nid)
    | _ => .error (.invalidEntry nid)

/-- The `for k, v in nodes_raw.items()` loop of `toq_from_json`, building the
nodes dict by insertion. -/
def parseNodes : List (String × PyVal) → List (NodeId × ToQNode) →
    Except SerErr (List (NodeId × ToQNode))
  | [], acc => .ok acc
  | (k, v) :: rest, acc =>
    match parseNodeEntry k v with
    | .error e => .error e
    | .ok (nid, node) => parseNodes rest (dictInsert nid node acc)

/-- Embeds `toq_from_json` of `core/serialization.py`: check `root_id` and
`nodes` presence, require `nodes` to be a mapping, parse each entry, then
validate the resulting tree. -/
def toq_from_json (obj : List (String × PyVal)) : Except SerErr ToQ :=
  if (obj.lookup "root_id").isNone ∨ (obj.lookup "nodes").isNone then
    .error .missingRootOrNodes
  else
    match (obj.lookup "nodes").getD PyVal.none with
    | .dict entries =>
      match parseNodes entries [] with
      | .error e => .error e
      | .ok nodes =>
        match obj.lookup "root_id" with
        | some (.int r) =>
          match (ToQ.mk nodes r).validate with
          | .error e => .error (.validation e)
          | .ok () => .ok (ToQ.mk nodes r)
        | _ => .error .rootIdNotInt
    | _ => .error .nodesNotMapping

/-! ## Collapse-plan machinery (`core/transforms.py`)

`core/transforms.py` is not among the provided sources (only its tests and
callers are); the following definitions are modelled from the specification
(§3, §4.2–§4.4), with names and error messages pinned by
`tests/test_transforms.py` and `tests/test_consistency.py`. -/

/-- Modelled from the spec: dataclass `CollapsePlan` of `core/transforms.py`
— an immutable tuple `cut_edges` of cut node identifiers. -/
structure CollapsePlan where
  cut_edges : List NodeId
deriving DecidableEq, Repr

/-- Modelled from the spec: embeds `OpenToQ` of `core/toq_types.py` — a
component as a stand-alone sub-tree plus its ordered external input ids. -/
structure OpenToQ where
  toq : ToQ
  inputs : List NodeId
  root_id : NodeId
deriving DecidableEq, Repr

/-- The `PlanError`s (`ValueError`s in the tests) raised by the plan
machinery of `core/transforms.py`. -/
inductive PlanErr where
  | rootCut
  | nodeNotInToQ (n : NodeId)
  | missingCollapsedQuestion (r : NodeId)
deriving DecidableEq, Repr

/-- Modelled from the spec: `enumerate_collapse_plans(tree, include_empty)`
(§4.2) — every subset of the tree's non-root node identifiers, each wrapped
as a `CollapsePlan` with ascending cut ids, in a fixed deterministic order;
with `include_empty = false` the empty cut set is omitted. -/
def enumerate_collapse_plans (t : ToQ) (include_empty : Bool) : List CollapsePlan :=
  let nonRoot := sortInts ((t.keys.filter (fun k => k ≠ t.root_id)).dedup)
  let plans := nonRoot.sublists.map CollapsePlan.mk
  if include_empty then plans else plans.filter (fun p => p.cut_edges ≠ [])

/-- Modelled from the spec: `component_roots(tree, plan)` (§4.3) =
`{tree.root} ∪ plan.cut_ids`, failing if the root id is cut or a cut id is
absent from the tree. -/
def component_roots (t : ToQ) (plan : CollapsePlan) : Except PlanErr (List NodeId) :=
  if t.root_id ∈ plan.cut_edges then .error .rootCut
  else match plan.cut_edges.find? (fun c => c ∉ t.keys) with
  | some c => .error (.nodeNotInToQ c)
  | none => .ok (t.root_id :: plan.cut_edges)

/-- Walks parent links from `n` toward the root, succeeding on the first
node of `R` met (inclusive of `n`); the fuel covers any parent chain of a
valid tree. -/
def firstRootUp (t : ToQ) (R : List NodeId) : Nat → NodeId → Option NodeId
  | 0, _ => Option.none
  | Nat.succ fuel, n =>
    if n ∈ R then some n
    else match t.find n with
      | some node =>
        match node.parent with
        | some p => firstRootUp t R fuel p
        | Option.none => Option.none
      | Option.none => Option.none

/-- Decides whether `n` lies in the component owned by `r` under the given
cut set: every node on the (unique) path from `r` to `n`, exclusive of `r`,
is not itself a cut id (§4.3), read along the parent chain from `n` up. -/
def inComponent (t : ToQ) (cuts : List NodeId) (r : NodeId) : Nat → NodeId → Bool
  | 0, _ => false
  | Nat.succ fuel, n =>
    if n = r then true
    else if n ∈ cuts then false
    else match t.find n with
      | some node =>
        match node.parent with
        | some p => inComponent t cuts r fuel p
        | Option.none => false
      | Option.none => false

/-- The node ids of the component owned by `r`, in `nodes` order. -/
def compMembers (t : ToQ) (cuts : List NodeId) (r : NodeId) : List NodeId :=
  t.keys.filter (fun n => inComponent t cuts r (t.nodes.length + 1) n)

/-- Modelled from the spec: `extract_open_toq(tree, plan, root)` (§4.3) —
the component owned by `root` as a stand-alone sub-tree (original texts,
parent links restricted to the component) plus the sorted, de-duplicated
cut children whose parent lies inside the component. -/
def extract_open_toq (t : ToQ) (plan : CollapsePlan) (r : NodeId) : OpenToQ :=
  let members := compMembers t plan.cut_edges r
  let subNodes := (t.nodes.filter (fun kv => kv.1 ∈ members)).map (fun kv =>
    (kv.1, { kv.2 with parent := match kv.2.parent with
                                 | some p => if p ∈ members then some p else Option.none
                                 | Option.none => Option.none }))
  let inputs := sortInts ((plan.cut_edges.filter (fun c =>
      match t.find c with
      | some node => match node.parent with
                     | some p => p ∈ members
                     | Option.none => false
      | Option.none => false)).dedup)
  ⟨⟨subNodes, r⟩, inputs, r⟩

/-- Modelled from the spec: dataclass `CollapsedToQ` of
`core/transforms.py` — the quotient tree for one plan, together with the
removed node ids, the originating plan, the per-root collapsed questions,
the component-roots set, and optional per-root `OpenToQ` provenance (the
field `run_consistency_check` re-attaches). -/
structure CollapsedToQ where
  toq : ToQ
  plan : CollapsePlan
  removed_nodes : List NodeId
  collapsed_question_by_root : List (NodeId × String)
  component_roots : List NodeId
  open_toq_by_root : Option (List (NodeId × OpenToQ)) := Option.none
deriving DecidableEq, Repr

/-- Modelled from the spec: `apply_collapse_plan(tree, plan,
collapsed_question_by_root)` (§4.4) — one node per component root bearing
the caller-supplied collapsed question, parent = the nearest ancestor of the
original parent that is itself a component root (`none` for the overall
root), `removed_nodes` = all node ids minus the component roots. -/
def apply_collapse_plan (t : ToQ) (plan : CollapsePlan)
    (cq : List (NodeId × String)) : Except PlanErr CollapsedToQ := do
  let roots ← component_roots t plan
  let qNodes ← roots.mapM (fun r => do
    match cq.lookup r with
    | Option.none => throw (.missingCollapsedQuestion r)
    | some text =>
      let parent :=
        if r = t.root_id then Option.none
        else match t.find r with
          | some node =>
            match node.parent with
            | some p => firstRootUp t roots (t.nodes.length + 1) p
            | Option.none => Option.none
          | Option.none => Option.none
      pure (r, ToQNode.mk r text parent))
  pure { toq := ⟨qNodes, t.root_id⟩
         plan := plan
         removed_nodes := t.keys.filter (fun k => k ∉ roots)
         collapsed_question_by_root := cq
         component_roots := roots }

/-! ## Consistency orchestrator (`core/consistency.py`) -/

/-- A collapser oracle: a pure function from an `OpenToQ` and context to a
collapsed question string. -/
abbrev Collapser := OpenToQ → Option String → String

/-- The key under which `run_consistency_check` caches collapsed questions:
`("collapsed_question_open_toq", r, open_toq.inputs)`. -/
abbrev CacheKey := String × NodeId × List NodeId

/-- The cross-plan cache threaded through `run_consistency_check`. -/
abbrev Cache := List (CacheKey × String)

/-- Embeds dataclass `RunRecord` of `core/consistency.py`. -/
structure RunRecord where
  plan : CollapsePlan
  collapsed : CollapsedToQ
  trace : EvalTrace
  root_answer : Answer
  normalized_root : Option String
deriving DecidableEq, Repr

/-- Embeds dataclass `ConsistencyReport` of `core/consistency.py` (the
`summary` mapping is always left empty by this layer). -/
structure ConsistencyReport where
  base_trace : EvalTrace
  base_root_answer : Answer
  runs : List RunRecord
  summary : List (String × String) := []
deriving DecidableEq, Repr

/-- Errors propagating out of `run_consistency_check`: a validation failure
of the input tree, an evaluation failure, or a plan failure. -/
inductive CErr where
  | val (e : ValErr)
  | eval (e : EvErr)
  | plan (e : PlanErr)
deriving DecidableEq, Repr

/-- The `for r in roots` loop of `run_consistency_check`: extract the
component's `OpenToQ`, look up the cache under
`("collapsed_question_open_toq", r, inputs)`, invoke the collapser only on
a miss and store the result.  Threads the cache and records every collapser
invocation as its `(root, inputs)` pair, in call order. -/
def collapseRoots (t : ToQ) (plan : CollapsePlan) (collapser : Collapser)
    (context : Option String) :
    List NodeId → Cache → List (NodeId × List NodeId) →
    List (NodeId × OpenToQ) → List (NodeId × String) →
    Cache × List (NodeId × List NodeId) × List (NodeId × OpenToQ) × List (NodeId × String)
  | [], cache, log, opens, cqs => (cache, log, opens, cqs)
  | r :: rest, cache, log, opens, cqs =>
    let open_toq := extract_open_toq t plan r
    let key : CacheKey := ("collapsed_question_open_toq", r, open_toq.inputs)
    match cache.lookup key with
    | some cqStr =>
      collapseRoots t plan collapser context rest cache log
        (opens ++ [(r, open_toq)]) (cqs ++ [(r, cqStr)])
    | Option.none =>
      let cqStr := collapser open_toq context
      collapseRoots t plan collapser context rest (cache ++ [(key, cqStr)])
        (log ++ [(r, open_toq.inputs)])
        (opens ++ [(r, open_toq)]) (cqs ++ [(r, cqStr)])

/-- The body of `run_consistency_check`'s `for plan in plans` loop: compute
component roots, collapse each component (threading the cache), build and
evaluate the quotient tree, normalize the root answer, and append a
`RunRecord`. -/
def processPlan (t : ToQ) (answerer : Answerer) (collapser : Collapser)
    (normalizer : Option (String → String)) (substituter : Option Substituter)
    (context : Option String) (cache : Cache)
    (log : List (NodeId × List NodeId)) (plan : CollapsePlan) :
    Except CErr RunRecord × Cache × List (NodeId × List NodeId) :=
  match component_roots t plan with
  | .error e => (.error (.plan e), cache, log)
  | .ok roots =>
    match collapseRoots t plan collapser context roots cache log [] [] with
    | (cache1, log1, opens, cqs) =>
      match apply_collapse_plan t plan cqs with
      | .error e => (.error (.plan e), cache1, log1)
      | .ok collapsed0 =>
        match evaluate_toq collapsed0.toq answerer substituter context with
        | (.error e, _) => (.error (.eval e), cache1, log1)
        | (.ok trace, _) =>
          match trace.answer.lookup collapsed0.toq.root_id with
          | Option.none =>
            (.error (.eval (.keyError collapsed0.toq.root_id)), cache1, log1)
          | some root_answer =>
            (.ok ⟨plan, { collapsed0 with open_toq_by_root := some opens },
              trace, root_answer,
              normalizer.map (fun f => f root_answer.text)⟩, cache1, log1)

/-- Folds `processPlan` over the plan list, accumulating `RunRecord`s and
aborting on the first error (the cache mutations and collapser calls made
before the raise persist, as in Python). -/
def runPlans (t : ToQ) (answerer : Answerer) (collapser : Collapser)
    (normalizer : Option (String → String)) (substituter : Option Substituter)
    (context : Option String) :
    List CollapsePlan → Cache → List (NodeId × List NodeId) → List RunRecord →
    Except CErr (List RunRecord) × Cache × List (NodeId × List NodeId)
  | [], cache, log, runs => (.ok runs, cache, log)
  | plan :: rest, cache, log, runs =>
    match processPlan t answerer collapser normalizer substituter context cache log plan with
    | (.error e, cache', log') => (.error e, cache', log')
    | (.ok run, cache', log') =>
      runPlans t answerer collapser normalizer substituter context rest cache' log'
        (runs ++ [run])

/-- The `include_empty` plan option of `run_consistency_check`
(`plan_opts["include_empty"]`, defaulting to true). -/
def includeEmptyOpt (plan_opts : Option (List (String × Bool))) : Bool :=
  match plan_opts with
  | Option.none => true
  | some opts =>
    match opts.lookup "include_empty" with
    | some b => b
    | Option.none => true

/-- Embeds `run_consistency_check` of `core/consistency.py`: validate,
evaluate the baseline, enumerate plans (honoring
`plan_opts["include_empty"]`, default true), then process every plan with
cross-plan caching of collapsed questions.  Besides the report (or error) it
returns the final cache and the list of collapser invocations as `(root,
inputs)` pairs, in call order. -/
def run_consistency_check (t : ToQ) (answerer : Answerer) (collapser : Collapser)
    (normalizer : Option (String → String) := Option.none)
    (substituter : Option Substituter := Option.none)
    (context : Option String := Option.none)
    (plan_opts : Option (List (String × Bool)) := Option.none)
    (cache : Option Cache := Option.none) :
    Except CErr ConsistencyReport × Cache × List (NodeId × List NodeId) :=
  let cache0 := cache.getD []
  match t.validate with
  | .error e => (.error (.val e), cache0, [])
  | .ok () =>
    match evaluate_toq t answerer substituter context with
    | (.error e, _) => (.error (.eval e), cache0, [])
    | (.ok base_trace, _) =>
      match base_trace.answer.lookup t.root_id with
      | Option.none => (.error (.eval (.keyError t.root_id)), cache0, [])
      | some base_root_answer =>
        let plans := enumerate_collapse_plans t (includeEmptyOpt plan_opts)
        match runPlans t answerer collapser normalizer substituter context plans cache0 [] [] with
        | (.error e, cache', log') => (.error e, cache', log')
        | (.ok runs, cache', log') =>
          (.ok ⟨base_trace, base_root_answer, runs, []⟩, cache', log')

/-- The character list of the placeholder `[A<i>]`. -/
def phChars (i : NodeId) : List Char := '[' :: 'A' :: ((pyIntRepr i).toList ++ [']'])

/-- A symbolic segmentation of a template: literal chunks interleaved with
placeholders. -/
inductive Seg where
  | chunk (cs : List Char)
  | ph (i : NodeId)
deriving DecidableEq, Repr

/-- The text of a segment. -/
def Seg.render : Seg → List Char
  | .chunk cs => cs
  | .ph i => phChars i

/-- The text of a segmented template. -/
def renderSegs (segs : List Seg) : List Char := (segs.map Seg.render).flatten

/-- A well-formed segmentation: every `[` of the template opens a
placeholder, i.e. literal chunks are `[`-free. -/
def SegWf (segs : List Seg) : Prop := ∀ cs, Seg.chunk cs ∈ segs → '[' ∉ cs

/-- Replacing one child's placeholder by its answer, at the segment level. -/
def substOne (i : NodeId) (r : List Char) : Seg → Seg
  | .chunk cs => .chunk cs
  | .ph j => if j = i then .chunk r else .ph j

/-- Simultaneous substitution of a whole child-answer mapping, at the
segment level: each placeholder of a mapped child becomes that child's
answer, everything else is untouched. -/
def substAll (m : List (NodeId × String)) (segs : List Seg) : List Seg :=
  segs.map (fun s => match s with
    | .chunk cs => .chunk cs
    | .ph j => match m.lookup j with
               | some a => .chunk a.toList
               | Option.none => .ph j)

/-- A concrete well-formed segmented template, `"[A1] and [A2]"`. -/
def sampleSegs : List Seg := [Seg.ph 1, Seg.chunk (' ' :: 'a' :: 'n' :: 'd' :: [' ']), Seg.ph 2]

/-- A concrete child-answer mapping. -/
def sampleAns : List (NodeId × String) := [(1, "7"), (2, "9")]

/-- The same mapping with its entries in the other order. -/
def sampleAnsRev : List (NodeId × String) := [(2, "9"), (1, "7")]

/-- Child-edge reachability: `Reach t u v` holds when `v` is reachable from
`u` by following child edges downward. -/
def Reach (t : ToQ) (u v : NodeId) : Prop :=
  Relation.ReflTransGen (fun a b => b ∈ t.childrenOf a) u v

/-- `vis` is closed under child edges except at nodes of `S` (the nodes
whose traversal is still in progress). -/
def ClosedE (t : ToQ) (vis S : List NodeId) : Prop :=
  ∀ x ∈ vis, x ∉ S → ∀ c ∈ t.childrenOf x, c ∈ vis

/-- The list is an ancestor chain: consecutive parent links, ending at a
parentless node. -/
def AncChain (t : ToQ) : List NodeId → Prop
  | [] => True
  | [x] => ∃ node, t.find x = some node ∧ node.parent = Option.none
  | x :: y :: rest =>
    (∃ node, t.find x = some node ∧ node.parent = some y) ∧ AncChain t (y :: rest)

/-- How many keys of the tree are still unvisited — the DFS termination
measure. -/
def measureOf (t : ToQ) (vis : List NodeId) : Nat :=
  (t.keys.filter (fun k => decide (k ∉ vis))).length

/-- Precondition of a `dfsVisit` call (how `validate` reaches it). -/
def DfsIn (t : ToQ) (u : NodeId) (vis stk : List NodeId) : Prop :=
  u ∈ t.keys ∧ u ∉ vis ∧ vis.Nodup ∧ (∀ x ∈ vis, x ∈ t.keys) ∧
  (∀ x ∈ stk, x ∈ vis) ∧ stk.Nodup ∧ AncChain t (u :: stk) ∧
  ClosedE t vis (u :: stk)

/-- Postcondition of a `dfsVisit` call: the stack is restored, the visited
set grows by exactly nodes reachable from `u`, and closedness is restored
relative to the outer stack. -/
def DfsOut (t : ToQ) (u : NodeId) (vis stk vis' : List NodeId) : Prop :=
  (∀ x ∈ vis, x ∈ vis') ∧ u ∈ vis' ∧ vis'.Nodup ∧
  (∀ x ∈ vis', x ∈ t.keys) ∧ (∀ x ∈ vis', x ∈ vis ∨ Reach t u x) ∧
  ClosedE t vis' stk

/-- Iterated parent step: follows `parent` links `k` times (`none` when a
link is missing). -/
def parentIter (t : ToQ) : Nat → NodeId → Option NodeId
  | 0, n => some n
  | Nat.succ k, n =>
    match t.find n with
    | some node =>
      match node.parent with
      | some p => parentIter t k p
      | Option.none => Option.none
    | Option.none => Option.none

/-- Well-formedness of a tree, clause for clause as §4.1 of the spec lists
the violations: root present; each node's id equals its key; parents exist;
no self-parent; the designated root is the unique parentless node; no cycle
among parent links; every node reachable from the root. -/
def WellFormed (t : ToQ) : Prop :=
  t.root_id ∈ t.keys ∧
  (∀ kv ∈ t.nodes, kv.2.id = kv.1) ∧
  (∀ kv ∈ t.nodes, ∀ p, kv.2.parent = some p → p ∈ t.keys) ∧
  (∀ kv ∈ t.nodes, kv.2.parent ≠ some kv.1) ∧
  (∃ rn, t.find t.root_id = some rn ∧ rn.parent = Option.none) ∧
  (∀ kv ∈ t.nodes, kv.2.parent = Option.none → kv.1 = t.root_id) ∧
  (∀ n ∈ t.keys, ∀ k, 0 < k → parentIter t k n ≠ some n) ∧
  (∀ n ∈ t.keys, Reach t t.root_id n)

/-- A concrete three-node tree (root 3 with children 1 and 2), as in the
repository's tests. -/
def tThree : ToQ :=
  ⟨[(1, ⟨1, "Q1?", some 3⟩), (2, ⟨2, "Q2?", some 3⟩),
    (3, ⟨3, "Q3 uses [A1],[A2]?", Option.none⟩)], 3⟩

/-- A concrete tree whose parent links form a cycle (2 ↔ 3). -/
def tCycle : ToQ :=
  ⟨[(1, ⟨1, "R", Option.none⟩), (2, ⟨2, "a", some 3⟩),
    (3, ⟨3, "b", some 2⟩)], 1⟩

/-- The order list is a valid postorder prefix: every child of a listed
node is listed before it. -/
def OrdOK (t : ToQ) (ord : List NodeId) : Prop :=
  ∀ p ∈ ord, ∀ c ∈ t.childrenOf p, c ∈ ord ∧ ord.indexOf c < ord.indexOf p

/-- Precondition of a `postDfs` call; `pend` is the (ghost) list of
in-progress ancestors: visited but not yet appended to the order. -/
def PostIn (t : ToQ) (n : NodeId) (vis ord pend : List NodeId) : Prop :=
  n ∈ t.keys ∧ vis.Nodup ∧ ord.Nodup ∧ (∀ x ∈ vis, x ∈ t.keys) ∧
  (∀ x, x ∈ vis ↔ x ∈ ord ∨ x ∈ pend) ∧ (∀ x ∈ ord, x ∉ pend) ∧
  pend.Nodup ∧ n ∉ pend ∧ AncChain t (n :: pend) ∧ OrdOK t ord

/-- Postcondition of a `postDfs` call. -/
def PostOut (t : ToQ) (n : NodeId) (vis ord pend vis' ord' : List NodeId) : Prop :=
  (∃ d, ord' = ord ++ d) ∧ (∀ x ∈ vis, x ∈ vis') ∧ vis'.Nodup ∧ ord'.Nodup ∧
  (∀ x ∈ vis', x ∈ t.keys) ∧ (∀ x, x ∈ vis' ↔ x ∈ ord' ∨ x ∈ pend) ∧
  (∀ x ∈ ord', x ∉ pend) ∧ n ∈ ord' ∧ OrdOK t ord' ∧
  (∀ x ∈ vis', x ∈ vis ∨ Reach t n x)

/-- What `evaluate_toq`'s loop records for one node: the rendered question
of a leaf is the raw template; of an internal node, the substituter applied
to the template and the child-id-to-answer-text mapping; the answer stored
is the answerer's reply to that question with the shared context. -/
def NodeEval (t : ToQ) (answerer : Answerer) (sub : Substituter)
    (context : Option String) (trace : EvalTrace) (n : NodeId) : Prop :=
  ∀ node, t.find n = some node →
    ∃ q, trace.rendered_question.lookup n = some q ∧
      trace.answer.lookup n = some (answerer q context) ∧
      (t.childrenOf n = [] → q = node.text) ∧
      (t.childrenOf n ≠ [] →
        q = sub node.text ((t.childrenOf n).map (fun c =>
          (c, ((trace.answer.lookup c).getD ⟨"", Option.none⟩).text))))

/-- The cache key a logged collapser invocation `(root, inputs)` maps to. -/
def cacheKeyOf (pr : NodeId × List NodeId) : CacheKey :=
  ("collapsed_question_open_toq", pr.1, pr.2)

/-! ## Lemmas: decimal representation round trip -/

theorem chDigit_digitCh {d : Nat} (h : d < 10) : chDigit (digitCh d) = some d := by
  interval_cases d <;> rfl

theorem digitCh_props {d : Nat} (h : d < 10) :
    digitCh d ≠ '[' ∧ digitCh d ≠ ']' ∧ digitCh d ≠ '-' ∧ digitCh d ≠ '+' ∧
    isPyWs (digitCh d) = false := by
  interval_cases d <;> exact ⟨by decide, by decide, by decide, by decide, by decide⟩

theorem natDigitsRev_eq_digits (f : Nat) :
    ∀ n : Nat, n ≤ f → natDigitsRev f n = Nat.digits 10 n := by
  induction f with
  | zero =>
    intro n hn
    rw [Nat.le_zero] at hn
    subst hn
    simp [natDigitsRev]
  | succ f ih =>
    intro n hn
    by_cases hz : n = 0
    · subst hz; simp [natDigitsRev]
    · rw [show natDigitsRev (f + 1) n = (n % 10) :: natDigitsRev f (n / 10) by
        rw [natDigitsRev, if_neg hz]]
      have hdiv : n / 10 ≤ f := by
        have h2 : n / 10 < n := Nat.div_lt_self (Nat.pos_of_ne_zero hz) (by omega)
        exact Nat.lt_succ_iff.mp (lt_of_lt_of_le h2 hn)
      rw [ih _ hdiv, ← Nat.digits_def' (by omega : 1 < 10) (Nat.pos_of_ne_zero hz)]

theorem natRepr_eq_digits (n : Nat) :
    natRepr n = if n = 0 then ['0'] else ((Nat.digits 10 n).map digitCh).reverse := by
  unfold natRepr
  rw [natDigitsRev_eq_digits n n (le_refl n)]

theorem natRepr_ne_nil (n : Nat) : natRepr n ≠ [] := by
  rw [natRepr_eq_digits]
  split
  · simp
  · next h =>
    simp only [ne_eq, List.reverse_eq_nil_iff, List.map_eq_nil_iff]
    exact Nat.digits_ne_nil_iff_ne_zero.mpr h

theorem natRepr_digits (n : Nat) :
    ∀ c ∈ natRepr n, ∃ d, d < 10 ∧ c = digitCh d := by
  intro c hc
  rw [natRepr_eq_digits] at hc
  split at hc
  · simp at hc; exact ⟨0, by omega, hc⟩
  · simp only [List.mem_reverse, List.mem_map] at hc
    obtain ⟨d, hd, rfl⟩ := hc
    exact ⟨d, Nat.digits_lt_base (by omega) hd, rfl⟩

theorem foldl_digitCh (bs : List Nat) (h : ∀ d ∈ bs, d < 10) (acc : Nat) :
    (bs.map digitCh).foldl
      (fun a c => do
        let x ← a
        let d ← chDigit c
        pure (x * 10 + d)) (some acc) =
    some (bs.foldl (fun a d => a * 10 + d) acc) := by
  induction bs generalizing acc with
  | nil => rfl
  | cons b bs ih =>
    simp only [List.map_cons, List.foldl_cons]
    rw [show ((do
        let x ← some acc
        let d ← chDigit (digitCh b)
        pure (x * 10 + d)) = some (acc * 10 + b)) by
      simp [chDigit_digitCh (h b (by simp))]]
    exact ih (fun d hd => h d (by simp [hd])) _

theorem foldl_reverse_ofDigits (l : List Nat) (acc : Nat) :
    l.reverse.foldl (fun a d => a * 10 + d) acc =
      acc * 10 ^ l.length + Nat.ofDigits 10 l := by
  induction l generalizing acc with
  | nil => simp
  | cons x xs ih =>
    simp only [List.reverse_cons, List.foldl_append, List.foldl_cons, List.foldl_nil,
      ih, Nat.ofDigits_cons, List.length_cons]
    ring

theorem parseDigits_cons (c : Char) (cs : List Char) :
    parseDigits (c :: cs) =
      (c :: cs).foldl
        (fun a c => do
          let x ← a
          let d ← chDigit c
          pure (x * 10 + d)) (some 0) := rfl

theorem parseDigits_natRepr (n : Nat) : parseDigits (natRepr n) = some n := by
  have hmap : natRepr n =
      (if n = 0 then [0] else (Nat.digits 10 n).reverse).map digitCh := by
    rw [natRepr_eq_digits]
    split
    · next h => subst h; decide
    · simp [List.map_reverse]
  set bs : List Nat := if n = 0 then [0] else (Nat.digits 10 n).reverse with hbs
  have hlt : ∀ d ∈ bs, d < 10 := by
    intro d hd
    rw [hbs] at hd
    split at hd
    · simp at hd; omega
    · exact Nat.digits_lt_base (by omega) (List.mem_reverse.mp hd)
  have hfold : bs.foldl (fun a d => a * 10 + d) 0 = n := by
    rw [hbs]
    split
    · next h => simp [h]
    · rw [foldl_reverse_ofDigits, Nat.ofDigits_digits]; simp
  cases hb : bs with
  | nil =>
    exfalso
    rw [hbs] at hb
    split at hb
    · simp at hb
    · next h =>
      rw [List.reverse_eq_nil_iff] at hb
      exact (Nat.digits_ne_nil_iff_ne_zero.mpr h) hb
  | cons b bs' =>
    rw [hmap, hb, List.map_cons, parseDigits_cons, ← List.map_cons,
      foldl_digitCh _ (by rw [← hb]; exact hlt), ← hb, hfold]

theorem dropWhile_natRepr (n : Nat) :
    (natRepr n).dropWhile isPyWs = natRepr n := by
  cases h : natRepr n with
  | nil => rfl
  | cons c cs =>
    have hc : c ∈ natRepr n := by rw [h]; simp
    obtain ⟨d, hd, rfl⟩ := natRepr_digits n c hc
    rw [List.dropWhile_cons_of_neg]
    simp [(digitCh_props hd).2.2.2.2]

theorem dropWhile_rev_natRepr (n : Nat) :
    ((natRepr n).reverse.dropWhile isPyWs).reverse = natRepr n := by
  cases h : (natRepr n).reverse with
  | nil =>
    exfalso; exact natRepr_ne_nil n (by simpa using congrArg List.reverse h)
  | cons c cs =>
    have hc : c ∈ natRepr n := by
      rw [← List.mem_reverse, h]; simp
    obtain ⟨d, hd, rfl⟩ := natRepr_digits n c hc
    rw [List.dropWhile_cons_of_neg]
    · rw [← h]; simp
    · simp [(digitCh_props hd).2.2.2.2]

theorem natRepr_head_digit (n : Nat) :
    ∃ d cs, d < 10 ∧ natRepr n = digitCh d :: cs := by
  cases h : natRepr n with
  | nil => exact absurd h (natRepr_ne_nil n)
  | cons c cs =>
    have hc : c ∈ natRepr n := by rw [h]; simp
    obtain ⟨d, hd, rfl⟩ := natRepr_digits n c hc
    exact ⟨d, cs, hd, rfl⟩

theorem toList_mk (cs : List Char) : String.toList ⟨cs⟩ = cs := rfl

theorem digitCh_isDigit {d : Nat} (h : d < 10) : (digitCh d).isDigit = true := by
  interval_cases d <;> decide

theorem isDigit_ne_underscore {c : Char} (h : c.isDigit = true) : ¬ c = '_' := by
  intro hc
  rw [hc] at h
  exact absurd h (by decide)

theorem digitsURest_cons (c : Char) (cs : List Char) :
    digitsURest (c :: cs) =
      if c = '_' then
        (match cs with
         | [] => false
         | d :: cs' => d.isDigit && digitsURest cs')
      else c.isDigit && digitsURest cs := by
  cases cs <;> rfl

theorem digitsURest_all_digits {cs : List Char}
    (h : ∀ c ∈ cs, c.isDigit = true) : digitsURest cs = true := by
  induction cs with
  | nil => rfl
  | cons c cs ih =>
    have hc := h c (List.mem_cons_self _ _)
    rw [digitsURest_cons, if_neg (isDigit_ne_underscore hc)]
    simp [hc, ih (fun x hx => h x (List.mem_cons_of_mem _ hx))]

theorem digitsU_all_digits {cs : List Char} (hne : cs ≠ [])
    (h : ∀ c ∈ cs, c.isDigit = true) : digitsU cs = true := by
  cases cs with
  | nil => exact absurd rfl hne
  | cons c cs =>
    rw [digitsU]
    simp [h c (List.mem_cons_self _ _),
      digitsURest_all_digits (fun x hx => h x (List.mem_cons_of_mem _ hx))]

theorem filter_no_underscore {cs : List Char}
    (h : ∀ c ∈ cs, c.isDigit = true) :
    cs.filter (fun c => ¬ c = '_') = cs :=
  List.filter_eq_self.mpr (fun c hc =>
    decide_eq_true (isDigit_ne_underscore (h c hc)))

theorem natRepr_isDigit (n : Nat) : ∀ c ∈ natRepr n, c.isDigit = true := by
  intro c hc
  obtain ⟨d, hd, rfl⟩ := natRepr_digits n c hc
  exact digitCh_isDigit hd

theorem parseDigitsU_natRepr (n : Nat) : parseDigitsU (natRepr n) = some n := by
  unfold parseDigitsU
  rw [if_pos (digitsU_all_digits (natRepr_ne_nil n) (natRepr_isDigit n)),
    filter_no_underscore (natRepr_isDigit n), parseDigits_natRepr]

/-- Python `int(str(i)) == i`: parsing the decimal rendering of an int
recovers it. -/
theorem pyParseInt_pyIntRepr (i : Int) : pyParseInt (pyIntRepr i) = some i := by
  unfold pyParseInt pyIntRepr
  by_cases hi : i < 0
  · simp only [if_pos hi, toList_mk]
    have hstrip : ((('-' :: natRepr i.natAbs).dropWhile isPyWs).reverse.dropWhile
        isPyWs).reverse = '-' :: natRepr i.natAbs := by
      rw [List.dropWhile_cons_of_neg (by simp [isPyWs])]
      have hsplit : ('-' :: natRepr i.natAbs).reverse =
          (natRepr i.natAbs).reverse ++ ['-'] := by simp
      rw [hsplit]
      cases hrev : (natRepr i.natAbs).reverse with
      | nil =>
        exfalso
        exact natRepr_ne_nil i.natAbs (by simpa using congrArg List.reverse hrev)
      | cons c cs' =>
        have hc : c ∈ natRepr i.natAbs := by rw [← List.mem_reverse, hrev]; simp
        obtain ⟨d', hd', rfl⟩ := natRepr_digits i.natAbs c hc
        rw [List.cons_append, List.dropWhile_cons_of_neg
          (by simp [(digitCh_props hd').2.2.2.2])]
        rw [← List.cons_append, ← hrev]
        simp
    rw [hstrip]
    split
    · next rest heq =>
      rw [List.cons.injEq] at heq
      rw [← heq.2, parseDigitsU_natRepr]
      simp only [Option.bind_eq_bind, Option.some_bind, Option.pure_def,
        Option.map_some', Option.some.injEq]
      show -(i.natAbs : Int) = i
      omega
    · next heq => rw [List.cons.injEq] at heq; simp at heq
    · next hne _ => exact absurd rfl (hne (natRepr i.natAbs))
  · simp only [if_neg hi, toList_mk]
    rw [show (natRepr i.natAbs).dropWhile isPyWs = natRepr i.natAbs from
      dropWhile_natRepr _]
    rw [dropWhile_rev_natRepr]
    obtain ⟨d, cs, hd, hrep⟩ := natRepr_head_digit i.natAbs
    rcases digitCh_props hd with ⟨-, -, h3, h4, -⟩
    rw [hrep]
    split
    · next heq =>
      rw [List.cons.injEq] at heq
      exact absurd heq.1 h3
    · next heq =>
      rw [List.cons.injEq] at heq
      exact absurd heq.1 h4
    · rw [← hrep, parseDigitsU_natRepr]
      simp only [Option.bind_eq_bind, Option.some_bind, Option.pure_def,
        Option.map_some', Option.some.injEq]
      show (i.natAbs : Int) = i
      omega

/-- `str` on ints is injective. -/
theorem pyIntRepr_injective : Function.Injective pyIntRepr := by
  intro a b h
  have := pyParseInt_pyIntRepr a
  rw [h, pyParseInt_pyIntRepr b] at this
  exact (Option.some_injective _ this).symm

/-! ## Lemmas: `str.replace` and the default substituter -/

theorem replaceF_fuel (p r : List Char) (hp : p ≠ []) :
    ∀ f (s : List Char), s.length ≤ f → replaceF p r f s = replaceF p r s.length s := by
  intro f
  induction f using Nat.strong_induction_on with
  | _ f ih =>
    intro s hs
    cases s with
    | nil => cases f <;> rfl
    | cons c cs =>
      cases f with
      | zero => simp at hs
      | succ f' =>
        have hsle : cs.length ≤ f' := by
          simp only [List.length_cons] at hs; omega
        show replaceF p r (f' + 1) (c :: cs) = replaceF p r (cs.length + 1) (c :: cs)
        rw [replaceF, replaceF]
        split
        · next h =>
          have hplen : 0 < p.length := List.length_pos.mpr hp
          have hd : ((c :: cs).drop p.length).length ≤ cs.length := by
            simp only [List.length_drop, List.length_cons]; omega
          congr 1
          exact (ih f' (by omega) _ (le_trans hd hsle)).trans
            (ih cs.length (by omega) _ hd).symm
        · congr 1
          exact ih f' (by omega) cs hsle

theorem replaceC_nil (p r : List Char) : replaceC p r [] = [] := rfl

theorem replaceC_cons_pos (p r : List Char) (c : Char) (cs : List Char)
    (h : p ≠ [] ∧ p.isPrefixOf (c :: cs)) :
    replaceC p r (c :: cs) = r ++ replaceC p r ((c :: cs).drop p.length) := by
  unfold replaceC
  show replaceF p r (cs.length + 1) (c :: cs) = _
  rw [replaceF, if_pos h]
  congr 1
  exact replaceF_fuel p r h.1 cs.length _ (by
    simp only [List.length_drop, List.length_cons]
    have : 0 < p.length := List.length_pos.mpr h.1
    omega)

theorem replaceC_cons_neg (p r : List Char) (c : Char) (cs : List Char)
    (h : ¬(p ≠ [] ∧ p.isPrefixOf (c :: cs))) :
    replaceC p r (c :: cs) = c :: replaceC p r cs := by
  unfold replaceC
  show replaceF p r (cs.length + 1) (c :: cs) = _
  rw [replaceF, if_neg h]

theorem placeholder_toList (i : NodeId) : (placeholder i).toList = phChars i := by
  show ("[A" ++ pyIntRepr i ++ "]").data = _
  rw [String.data_append, String.data_append]
  rfl

theorem pyIntRepr_no_brackets (i : NodeId) :
    ∀ c ∈ (pyIntRepr i).toList, c ≠ '[' ∧ c ≠ ']' := by
  intro c hc
  unfold pyIntRepr at hc
  split at hc
  · rw [toList_mk] at hc
    rcases List.mem_cons.mp hc with rfl | hmem
    · exact ⟨by decide, by decide⟩
    · obtain ⟨d, hd, rfl⟩ := natRepr_digits _ c hmem
      exact ⟨(digitCh_props hd).1, (digitCh_props hd).2.1⟩
  · rw [toList_mk] at hc
    obtain ⟨d, hd, rfl⟩ := natRepr_digits _ c hc
    exact ⟨(digitCh_props hd).1, (digitCh_props hd).2.1⟩

theorem replaceC_append_no_bracket (p r : List Char) (hp0 : p.head? = some '[')
    {l : List Char} (s : List Char) (hl : '[' ∉ l) :
    replaceC p r (l ++ s) = l ++ replaceC p r s := by
  obtain ⟨p', rfl⟩ : ∃ p', p = '[' :: p' := by
    cases p with
    | nil => simp at hp0
    | cons a p' => simp only [List.head?_cons, Option.some.injEq] at hp0; exact ⟨p', by rw [hp0]⟩
  induction l with
  | nil => rfl
  | cons c l ih =>
    have hc : c ≠ '[' := fun h => hl (h ▸ List.mem_cons_self c l)
    rw [List.cons_append, replaceC_cons_neg]
    · rw [ih (fun h => hl (List.mem_cons_of_mem c h))]
      rfl
    · rintro ⟨-, hpre⟩
      rw [List.isPrefixOf_iff_prefix, List.cons_prefix_cons] at hpre
      exact hc hpre.1.symm

theorem rsb_prefix_eq {di dj : List Char} (hdi : ']' ∉ di) (hdj : ']' ∉ dj)
    (s : List Char) (h : (di ++ [']']) <+: (dj ++ ']' :: s)) : di = dj := by
  induction di generalizing dj with
  | nil =>
    cases dj with
    | nil => rfl
    | cons b dj' =>
      rw [List.nil_append, List.cons_append, List.cons_prefix_cons] at h
      exact absurd h.1.symm (fun hb => hdj (hb ▸ List.mem_cons_self b dj'))
  | cons a di' ih =>
    cases dj with
    | nil =>
      rw [List.cons_append, List.nil_append, List.cons_prefix_cons] at h
      exact absurd h.1 (fun ha => hdi (ha ▸ List.mem_cons_self a di'))
    | cons b dj' =>
      rw [List.cons_append, List.cons_append, List.cons_prefix_cons] at h
      have hrec := ih (fun hm => hdi (List.mem_cons_of_mem a hm))
        (fun hm => hdj (List.mem_cons_of_mem b hm)) h.2
      rw [h.1, hrec]

theorem ph_prefix_eq {i j : NodeId} (s : List Char)
    (h : phChars i <+: phChars j ++ s) : i = j := by
  unfold phChars at h
  rw [List.cons_append, List.cons_prefix_cons] at h
  rw [List.cons_append, List.cons_prefix_cons] at h
  replace h := h.2.2
  rw [List.append_assoc, List.singleton_append] at h
  have hdij := rsb_prefix_eq (fun hm => ((pyIntRepr_no_brackets i _ hm).2) rfl)
    (fun hm => ((pyIntRepr_no_brackets j _ hm).2) rfl) s h
  have : pyIntRepr i = pyIntRepr j := by
    have := congrArg (fun l : List Char => (⟨l⟩ : String)) hdij
    simpa using this
  exact pyIntRepr_injective this

theorem renderSegs_nil : renderSegs [] = [] := rfl

theorem renderSegs_cons (s : Seg) (rest : List Seg) :
    renderSegs (s :: rest) = s.render ++ renderSegs rest := by
  simp [renderSegs]

theorem phChars_eq_cons (j : NodeId) (X : List Char) :
    phChars j ++ X = '[' :: (('A' :: ((pyIntRepr j).toList ++ [']'])) ++ X) := by
  unfold phChars; simp

theorem replaceC_render (i : NodeId) (r : List Char) (segs : List Seg)
    (hwf : SegWf segs) :
    replaceC (phChars i) r (renderSegs segs) =
      renderSegs (segs.map (substOne i r)) := by
  induction segs with
  | nil => rfl
  | cons s rest ih =>
    have hwfRest : SegWf rest := fun cs hm => hwf cs (List.mem_cons_of_mem s hm)
    have ihr := ih hwfRest
    rw [List.map_cons, renderSegs_cons, renderSegs_cons]
    cases s with
    | chunk cs =>
      have hcs : '[' ∉ cs := hwf cs (List.mem_cons_self _ _)
      show replaceC (phChars i) r (cs ++ renderSegs rest) =
        (substOne i r (Seg.chunk cs)).render ++ renderSegs (rest.map (substOne i r))
      rw [replaceC_append_no_bracket (phChars i) r (by rfl) _ hcs, ihr]
      rfl
    | ph j =>
      show replaceC (phChars i) r (phChars j ++ renderSegs rest) =
        (substOne i r (Seg.ph j)).render ++ renderSegs (rest.map (substOne i r))
      by_cases hij : j = i
      · subst hij
        rw [phChars_eq_cons, replaceC_cons_pos]
        · rw [← phChars_eq_cons,
            show (phChars j).length = (phChars j).length from rfl]
          have hdrop : (phChars j ++ renderSegs rest).drop (phChars j).length =
              renderSegs rest := List.drop_left _ _
          rw [hdrop, ihr]
          have hsub : substOne j r (Seg.ph j) = Seg.chunk r := by simp [substOne]
          rw [hsub]
          rfl
        · constructor
          · unfold phChars; simp
          · rw [List.isPrefixOf_iff_prefix, ← phChars_eq_cons]
            exact ⟨renderSegs rest, rfl⟩
      · rw [phChars_eq_cons, replaceC_cons_neg]
        · have hl : '[' ∉ ('A' :: ((pyIntRepr j).toList ++ [']'])) := by
            intro hm
            rcases List.mem_cons.mp hm with h | h
            · exact absurd h.symm (by decide)
            · rcases List.mem_append.mp h with h | h
              · exact (pyIntRepr_no_brackets j _ h).1 rfl
              · rw [List.mem_singleton] at h
                exact absurd h.symm (by decide)
          rw [replaceC_append_no_bracket (phChars i) r (by rfl) _ hl, ihr]
          have hsub : substOne i r (Seg.ph j) = Seg.ph j := by simp [substOne, hij]
          rw [hsub]
          show _ = phChars j ++ _
          rw [phChars_eq_cons]
        · rintro ⟨-, hpre⟩
          rw [List.isPrefixOf_iff_prefix, ← phChars_eq_cons] at hpre
          exact hij (ph_prefix_eq _ hpre).symm

/-! ## Lemmas: association-list lookup -/

section Lookup

variable {α β : Type} [BEq α] [LawfulBEq α]

theorem lookup_eq_none_iff {l : List (α × β)} {k : α} :
    l.lookup k = Option.none ↔ ∀ p ∈ l, p.1 ≠ k := by
  induction l with
  | nil => simp
  | cons p rest ih =>
    rw [List.lookup]
    by_cases hk : p.1 = k
    · rw [show (k == p.1) = true by simp [hk]]
      simp only [List.mem_cons]
      constructor
      · intro h; cases h
      · intro h; exact absurd hk (h p (Or.inl rfl))
    · rw [show (k == p.1) = false by simp [Ne.symm hk]]
      simp only [List.mem_cons, ih]
      constructor
      · rintro h q (rfl | hq)
        · exact hk
        · exact h q hq
      · intro h q hq; exact h q (Or.inr hq)

theorem lookup_mem {l : List (α × β)} {k : α} {v : β}
    (h : l.lookup k = some v) : (k, v) ∈ l := by
  induction l with
  | nil => simp [List.lookup] at h
  | cons p rest ih =>
    rcases p with ⟨a, b⟩
    rw [List.lookup] at h
    by_cases hk : k = a
    · subst hk
      rw [show (k == k) = true from by simp] at h
      injection h with hb
      subst hb
      exact List.mem_cons_self _ _
    · rw [show (k == a) = false from by simp [hk]] at h
      exact List.mem_cons_of_mem _ (ih h)

theorem mem_lookup {l : List (α × β)} {k : α} {v : β}
    (nd : (l.map Prod.fst).Nodup) (h : (k, v) ∈ l) : l.lookup k = some v := by
  induction l with
  | nil => simp at h
  | cons p rest ih =>
    rw [List.map_cons, List.nodup_cons] at nd
    rcases List.mem_cons.mp h with rfl | hmem
    · rw [List.lookup]
      simp
    · have hk : k ≠ p.1 := by
        intro heq
        exact nd.1 (List.mem_map.mpr ⟨(k, v), hmem, heq⟩)
      rw [List.lookup, show (k == p.1) = false by simp [hk]]
      exact ih nd.2 hmem

theorem perm_lookup_eq {l₁ l₂ : List (α × β)} (h : l₁.Perm l₂)
    (nd : (l₁.map Prod.fst).Nodup) (k : α) : l₁.lookup k = l₂.lookup k := by
  have nd₂ : (l₂.map Prod.fst).Nodup := (h.map Prod.fst).nodup_iff.mp nd
  cases hl : l₁.lookup k with
  | none =>
    rw [lookup_eq_none_iff] at hl
    rw [eq_comm, lookup_eq_none_iff]
    intro p hp
    exact hl p (h.mem_iff.mpr hp)
  | some v =>
    rw [eq_comm]
    exact mem_lookup nd₂ (h.mem_iff.mp (lookup_mem hl))

end Lookup

/-! ## The default substituter: canonical form and order independence -/

theorem substAll_nil (segs : List Seg) : substAll [] segs = segs := by
  unfold substAll
  conv_rhs => rw [← List.map_id segs]
  apply List.map_congr_left
  intro s _
  cases s <;> rfl

theorem substAll_cons (i : NodeId) (a : String) (m : List (NodeId × String))
    (segs : List Seg) :
    substAll m (segs.map (substOne i a.toList)) = substAll ((i, a) :: m) segs := by
  unfold substAll
  rw [List.map_map]
  apply List.map_congr_left
  intro s _
  cases s with
  | chunk cs => rfl
  | ph j =>
    show (match substOne i a.toList (Seg.ph j) with
      | Seg.chunk cs => Seg.chunk cs
      | Seg.ph j' => match m.lookup j' with
                     | some b => Seg.chunk b.toList
                     | Option.none => Seg.ph j') = _
    by_cases hij : j = i
    · subst hij
      rw [show substOne j a.toList (Seg.ph j) = Seg.chunk a.toList by
        simp [substOne]]
      show Seg.chunk a.toList =
        (match ((j, a) :: m).lookup j with
         | some b => Seg.chunk b.toList
         | Option.none => Seg.ph j)
      rw [List.lookup, show (j == j) = true by simp]
    · rw [show substOne i a.toList (Seg.ph j) = Seg.ph j by simp [substOne, hij]]
      show (match m.lookup j with
        | some b => Seg.chunk b.toList
        | Option.none => Seg.ph j) =
        (match ((i, a) :: m).lookup j with
         | some b => Seg.chunk b.toList
         | Option.none => Seg.ph j)
      rw [List.lookup, show (j == i) = false by simp [hij]]

theorem placeholder_not_empty (i : NodeId) : (placeholder i).isEmpty = false := by
  have h : (placeholder i).data = phChars i := placeholder_toList i
  rw [Bool.eq_false_iff]
  intro hc
  rw [String.isEmpty_iff (placeholder i)] at hc
  rw [hc] at h
  exact absurd h.symm (by unfold phChars; simp)

theorem pyReplace_placeholder (i : NodeId) (a : String) (l : List Char) :
    pyReplace ⟨l⟩ (placeholder i) a = ⟨replaceC (phChars i) a.toList l⟩ := by
  unfold pyReplace
  rw [placeholder_not_empty i]
  show (⟨replaceC (placeholder i).toList a.toList l⟩ : String) = _
  rw [placeholder_toList]

theorem default_substituter_canonical (m : List (NodeId × String))
    (segs : List Seg) (hwf : SegWf segs)
    (hans : ∀ p ∈ m, '[' ∉ (p.2 : String).toList) :
    default_substituter ⟨renderSegs segs⟩ m = ⟨renderSegs (substAll m segs)⟩ := by
  induction m generalizing segs with
  | nil => rw [substAll_nil]; rfl
  | cons p m' ih =>
    rcases p with ⟨i, a⟩
    show default_substituter (pyReplace ⟨renderSegs segs⟩ (placeholder i) a) m' = _
    rw [pyReplace_placeholder, replaceC_render i a.toList segs hwf]
    have hwf' : SegWf (segs.map (substOne i a.toList)) := by
      intro cs hm
      rcases List.mem_map.mp hm with ⟨s₀, hs₀, heq⟩
      cases s₀ with
      | chunk csZ =>
        rw [show substOne i a.toList (Seg.chunk csZ) = Seg.chunk csZ from rfl] at heq
        cases heq
        exact hwf _ hs₀
      | ph j =>
        by_cases hij : j = i
        · subst hij
          rw [show substOne j a.toList (Seg.ph j) = Seg.chunk a.toList by
            simp [substOne]] at heq
          cases heq
          exact hans (j, a) (List.mem_cons_self _ _)
        · rw [show substOne i a.toList (Seg.ph j) = Seg.ph j by
            simp [substOne, hij]] at heq
          cases heq
    rw [ih _ hwf' (fun q hq => hans q (List.mem_cons_of_mem _ hq)),
      substAll_cons]

/-- C8: the claim as stated is false: `default_substituter` applies the
replacements sequentially, and on the template `[[A2]A1]` with answers
`{2 ↦ "", 1 ↦ "y"}` — two mappings holding the same entries, only processed
in different orders — the two orders give different results (`"y"` versus
`"[A1]"`), so the result is order-dependent; moreover the `"y"` outcome
rewrote text spliced together from outside any original `[A1]` occurrence. -/
theorem c8_counterexample :
    default_substituter "[[A2]A1]" [(2, ""), (1, "y")] = "y" ∧
    default_substituter "[[A2]A1]" [(1, "y"), (2, "")] = "[A1]" ∧
    List.Perm [((2 : NodeId), ""), (1, "y")] [(1, "y"), (2, "")] ∧
    default_substituter "[[A2]A1]" [(2, ""), (1, "y")] ≠
      default_substituter "[[A2]A1]" [(1, "y"), (2, "")] :=
  ⟨by decide, by decide, by decide, by decide⟩

/-- C8 (amended): for every template whose every `[` opens a well-formed
placeholder (a segmentation into `[`-free literal chunks and placeholders)
and every finite child-answer mapping with distinct child ids none of whose
answer texts contains `[`, the default substituter replaces every
placeholder occurrence of every mapped child by that child's answer text,
rewrites no other text (the canonical segment-wise substitution), and the
result is independent of the order in which the child entries are
processed.  Without those hypotheses the replacement is order-dependent
(see the counterexample). -/
theorem c8_substituter_canonical_order_independent
    (segs : List Seg) (m m' : List (NodeId × String))
    (hwf : SegWf segs)
    (hans : ∀ p ∈ m, '[' ∉ (p.2 : String).toList)
    (hnd : (m.map Prod.fst).Nodup)
    (hperm : m'.Perm m) :
    default_substituter ⟨renderSegs segs⟩ m = ⟨renderSegs (substAll m segs)⟩ ∧
    default_substituter ⟨renderSegs segs⟩ m' =
      default_substituter ⟨renderSegs segs⟩ m := by
  have h1 := default_substituter_canonical m segs hwf hans
  have hans' : ∀ p ∈ m', '[' ∉ (p.2 : String).toList :=
    fun p hp => hans p (hperm.subset hp)
  have h2 := default_substituter_canonical m' segs hwf hans'
  refine ⟨h1, ?_⟩
  rw [h1, h2]
  have hnd' : (m'.map Prod.fst).Nodup := ((hperm.map Prod.fst).nodup_iff).mpr hnd
  have : substAll m' segs = substAll m segs := by
    unfold substAll
    apply List.map_congr_left
    intro s _
    cases s with
    | chunk cs => rfl
    | ph j =>
      show (match m'.lookup j with
            | some a => Seg.chunk a.toList
            | Option.none => Seg.ph j) =
           (match m.lookup j with
            | some a => Seg.chunk a.toList
            | Option.none => Seg.ph j)
      rw [perm_lookup_eq hperm hnd' j]
  rw [this]

/-- Witness for C8's amended theorem: the template `[A1] and [A2]` with the
answers `{1 ↦ "7", 2 ↦ "9"}` supplied in either order. -/
theorem c8_substituter_witness :
    default_substituter ⟨renderSegs sampleSegs⟩ sampleAns =
      ⟨renderSegs (substAll sampleAns sampleSegs)⟩ ∧
    default_substituter ⟨renderSegs sampleSegs⟩ sampleAnsRev =
      default_substituter ⟨renderSegs sampleSegs⟩ sampleAns :=
  c8_substituter_canonical_order_independent sampleSegs sampleAns sampleAnsRev
    (by
      intro cs hm
      simp only [sampleSegs, List.mem_cons, List.not_mem_nil, or_false] at hm
      rcases hm with h | h | h
      · exact Seg.noConfusion h
      · injection h with h1
        subst h1
        decide
      · exact Seg.noConfusion h)
    (by decide) (by decide) (by decide)

/-! ## Reachability, ancestor chains and the DFS of `validate` -/

theorem childrenOf_subset_keys (t : ToQ) {c u : NodeId}
    (h : c ∈ t.childrenOf u) : c ∈ t.keys := by
  unfold ToQ.childrenOf at h
  split at h
  · rcases List.mem_map.mp h with ⟨kv, hkv, rfl⟩
    exact List.mem_map.mpr ⟨kv, (List.mem_filter.mp hkv).1, rfl⟩
  · simp at h

theorem find_mem {t : ToQ} {c : NodeId} {node : ToQNode}
    (h : t.find c = some node) : (c, node) ∈ t.nodes := lookup_mem h

theorem mem_find {t : ToQ} (hnd : t.KeysNodup) {c : NodeId} {node : ToQNode}
    (h : (c, node) ∈ t.nodes) : t.find c = some node := mem_lookup hnd h

theorem mem_childrenOf (t : ToQ) (hnd : t.KeysNodup) {c u : NodeId} :
    c ∈ t.childrenOf u ↔
      u ∈ t.keys ∧ ∃ node, t.find c = some node ∧ node.parent = some u := by
  constructor
  · intro h
    have hu : u ∈ t.keys := by
      unfold ToQ.childrenOf at h
      split at h
      · assumption
      · simp at h
    refine ⟨hu, ?_⟩
    unfold ToQ.childrenOf at h
    rw [if_pos hu] at h
    rcases List.mem_map.mp h with ⟨kv, hkv, rfl⟩
    rcases List.mem_filter.mp hkv with ⟨hmem, hp⟩
    exact ⟨kv.2, mem_find hnd (by rcases kv with ⟨a, b⟩; exact hmem),
      of_decide_eq_true hp⟩
  · rintro ⟨hu, node, hfind, hp⟩
    unfold ToQ.childrenOf
    rw [if_pos hu]
    exact List.mem_map.mpr ⟨(c, node), List.mem_filter.mpr
      ⟨find_mem hfind, decide_eq_true hp⟩, rfl⟩

theorem anc_chain_mem_parent (t : ToQ) :
    ∀ {l : List NodeId} {c u : NodeId} {node : ToQNode},
      AncChain t l → c ∈ l → t.find c = some node → node.parent = some u →
      u ∈ l.tail
  | [], _, _, _, _, hc, _, _ => absurd hc (List.not_mem_nil _)
  | [x], c, u, node, hch, hc, hfind, hp => by
    rcases hch with ⟨node', hfind', hp'⟩
    rw [List.mem_singleton] at hc
    subst hc
    rw [hfind] at hfind'
    injection hfind' with hn
    subst hn
    rw [hp'] at hp
    cases hp
  | x :: y :: rest, c, u, node, hch, hc, hfind, hp => by
    rcases hch with ⟨⟨node', hfind', hp'⟩, hch'⟩
    rcases List.mem_cons.mp hc with rfl | hc'
    · rw [hfind] at hfind'
      injection hfind' with hn
      subst hn
      rw [hp'] at hp
      injection hp with hu
      subst hu
      exact List.mem_cons_self _ _
    · have := anc_chain_mem_parent t hch' hc' hfind hp
      exact List.mem_cons_of_mem _ this

/-- A child of the node on top of an ancestor chain cannot lie on the chain:
exactly the situation the `Cycle detected` branch of `validate` tests for. -/
theorem no_cycle_in_stack (t : ToQ) (hnd : t.KeysNodup) {u c : NodeId}
    {stk : List NodeId} (hchain : AncChain t (u :: stk))
    (hnodup : (u :: stk).Nodup) (hc : c ∈ t.childrenOf u) : c ∉ u :: stk := by
  intro hmem
  rcases (mem_childrenOf t hnd).mp hc with ⟨-, node, hfind, hp⟩
  have hu : u ∈ (u :: stk).tail :=
    anc_chain_mem_parent t hchain hmem hfind hp
  rw [List.tail_cons] at hu
  exact (List.nodup_cons.mp hnodup).1 hu

theorem measure_mono (t : ToQ) {vis vis' : List NodeId}
    (h : ∀ x ∈ vis, x ∈ vis') : measureOf t vis' ≤ measureOf t vis := by
  unfold measureOf
  exact List.Sublist.length_le (List.monotone_filter_right _ (by
    intro a ha
    simp only [decide_eq_true_eq] at ha ⊢
    intro hmem
    exact ha (h a hmem)))

theorem measure_lt (t : ToQ) {vis : List NodeId} {u : NodeId}
    (hu : u ∈ t.keys) (hnv : u ∉ vis) :
    measureOf t (u :: vis) < measureOf t vis := by
  unfold measureOf
  have hsub : List.Sublist (t.keys.filter (fun k => decide (k ∉ u :: vis)))
      (t.keys.filter (fun k => decide (k ∉ vis))) := by
    apply List.monotone_filter_right
    intro a ha
    simp only [decide_eq_true_eq, List.mem_cons, not_or] at ha ⊢
    exact ha.2
  rcases Nat.lt_or_ge (t.keys.filter (fun k => decide (k ∉ u :: vis))).length
      (t.keys.filter (fun k => decide (k ∉ vis))).length with h | h
  · exact h
  · exfalso
    have heq := hsub.eq_of_length (le_antisymm (hsub.length_le) h)
    have humem : u ∈ t.keys.filter (fun k => decide (k ∉ vis)) :=
      List.mem_filter.mpr ⟨hu, by simp [hnv]⟩
    rw [← heq] at humem
    rcases List.mem_filter.mp humem with ⟨-, hdec⟩
    simp at hdec

/-- The DFS of `validate` never errors when its preconditions hold — in
particular the fuel chosen by the embedding suffices and the `Cycle
detected` branch is unreachable — and its postconditions hold on return. -/
theorem dfsVisit_spec (t : ToQ) (hnd : t.KeysNodup) :
    ∀ fuel u vis stk, DfsIn t u vis stk → measureOf t vis < fuel →
      ∃ vis', dfsVisit t fuel u vis stk = .ok (vis', stk) ∧
        DfsOut t u vis stk vis' := by
  intro fuel
  induction fuel using Nat.strong_induction_on with
  | _ fuel ih =>
    intro u vis stk hin hmeas
    obtain ⟨huk, hunv, hvnd, hvk, hsv, hsnd, hchain, hclosed⟩ := hin
    cases fuel with
    | zero => omega
    | succ f =>
      have hstknd : (u :: stk).Nodup :=
        List.nodup_cons.mpr ⟨fun h => hunv (hsv u h), hsnd⟩
      have loop : ∀ cs, (∀ c ∈ cs, c ∈ t.childrenOf u) →
          ∀ vis₀, (∀ x ∈ u :: vis, x ∈ vis₀) → vis₀.Nodup →
            (∀ x ∈ vis₀, x ∈ t.keys) →
            (∀ x ∈ vis₀, x = u ∨ x ∈ vis ∨ ∃ c ∈ t.childrenOf u, Reach t c x) →
            ClosedE t vis₀ (u :: stk) →
            (∀ x ∈ u :: stk, x ∈ vis₀) →
            ∃ vis₁,
              childLoop (dfsVisit t f) u cs vis₀ (u :: stk) = .ok (vis₁, u :: stk) ∧
              (∀ x ∈ vis₀, x ∈ vis₁) ∧ vis₁.Nodup ∧ (∀ x ∈ vis₁, x ∈ t.keys) ∧
              (∀ x ∈ vis₁, x = u ∨ x ∈ vis ∨ ∃ c ∈ t.childrenOf u, Reach t c x) ∧
              ClosedE t vis₁ (u :: stk) ∧ (∀ x ∈ u :: stk, x ∈ vis₁) ∧
              (∀ c ∈ cs, c ∈ vis₁) := by
        intro cs
        induction cs with
        | nil =>
          intro _ vis₀ h1 h2 h3 h4 h5 h6
          exact ⟨vis₀, rfl, fun x h => h, h2, h3, h4, h5, h6, by simp⟩
        | cons c cs' ihc =>
          intro hcs vis₀ h1 h2 h3 h4 h5 h6
          have hcchild : c ∈ t.childrenOf u := hcs c (List.mem_cons_self _ _)
          have hcns : c ∉ u :: stk := no_cycle_in_stack t hnd hchain hstknd hcchild
          rw [childLoop, if_neg hcns]
          by_cases hcv : c ∈ vis₀
          · rw [if_pos hcv]
            obtain ⟨vis₁, heq, hmono, hnd1, hk1, hs1, hcl1, hstk1, hall1⟩ :=
              ihc (fun c' h => hcs c' (List.mem_cons_of_mem _ h)) vis₀ h1 h2 h3 h4 h5 h6
            exact ⟨vis₁, heq, hmono, hnd1, hk1, hs1, hcl1, hstk1, by
              intro c' hc'
              rcases List.mem_cons.mp hc' with rfl | hc'
              · exact hmono c' hcv
              · exact hall1 c' hc'⟩
          · rw [if_neg hcv]
            obtain ⟨-, node, hfind, hpar⟩ := (mem_childrenOf t hnd).mp hcchild
            have hdin : DfsIn t c vis₀ (u :: stk) := by
              refine ⟨childrenOf_subset_keys t hcchild, hcv, h2, h3, h6, hstknd,
                ⟨⟨node, hfind, hpar⟩, hchain⟩, ?_⟩
              intro x hx hxs ch hch
              exact h5 x hx (fun hmem => hxs (List.mem_cons_of_mem _ hmem)) ch hch
            have hmeas0 : measureOf t vis₀ < f := by
              have hle : measureOf t vis₀ ≤ measureOf t (u :: vis) :=
                measure_mono t h1
              have hlt : measureOf t (u :: vis) < measureOf t vis :=
                measure_lt t huk hunv
              omega
            obtain ⟨vis₁, heqd, hm1, hu1, hnd1, hk1, hsound1, hcl1⟩ :=
              ih f (Nat.lt_succ_self f) c vis₀ (u :: stk) hdin hmeas0
            rw [heqd]
            have h1' : ∀ x ∈ u :: vis, x ∈ vis₁ := fun x h => hm1 x (h1 x h)
            have h4' : ∀ x ∈ vis₁,
                x = u ∨ x ∈ vis ∨ ∃ c' ∈ t.childrenOf u, Reach t c' x := by
              intro x hx
              rcases hsound1 x hx with hx0 | hreach
              · exact h4 x hx0
              · exact Or.inr (Or.inr ⟨c, hcchild, hreach⟩)
            have h6' : ∀ x ∈ u :: stk, x ∈ vis₁ := fun x h => hm1 x (h6 x h)
            obtain ⟨vis₂, heq2, hmono2, hnd2, hk2, hs2, hcl2, hstk2, hall2⟩ :=
              ihc (fun c' h => hcs c' (List.mem_cons_of_mem _ h)) vis₁ h1' hnd1
                hk1 h4' hcl1 h6'
            refine ⟨vis₂, heq2, fun x h => hmono2 x (hm1 x h), hnd2, hk2, hs2,
              hcl2, hstk2, ?_⟩
            intro c' hc'
            rcases List.mem_cons.mp hc' with rfl | hc'
            · exact hmono2 c' hu1
            · exact hall2 c' hc'
      have hinit1 : ∀ x ∈ u :: vis, x ∈ u :: vis := fun x h => h
      have hinit2 : (u :: vis).Nodup := List.nodup_cons.mpr ⟨hunv, hvnd⟩
      have hinit3 : ∀ x ∈ u :: vis, x ∈ t.keys := by
        intro x hx
        rcases List.mem_cons.mp hx with rfl | hx
        · exact huk
        · exact hvk x hx
      have hinit4 : ∀ x ∈ u :: vis,
          x = u ∨ x ∈ vis ∨ ∃ c ∈ t.childrenOf u, Reach t c x := by
        intro x hx
        rcases List.mem_cons.mp hx with rfl | hx
        · exact Or.inl rfl
        · exact Or.inr (Or.inl hx)
      have hinit5 : ClosedE t (u :: vis) (u :: stk) := by
        intro x hx hxs ch hch
        rcases List.mem_cons.mp hx with rfl | hx
        · exact absurd (List.mem_cons_self _ _) hxs
        · exact List.mem_cons_of_mem _ (hclosed x hx hxs ch hch)
      have hinit6 : ∀ x ∈ u :: stk, x ∈ u :: vis := by
        intro x hx
        rcases List.mem_cons.mp hx with rfl | hx
        · exact List.mem_cons_self _ _
        · exact List.mem_cons_of_mem _ (hsv x hx)
      obtain ⟨vis₂, heqLoop, hm2, hnd2, hk2, hsound2, hcl2, hstk2, hch2⟩ :=
        loop (t.childrenOf u) (fun c h => h) (u :: vis) hinit1 hinit2 hinit3
          hinit4 hinit5 hinit6
      refine ⟨vis₂, ?_, ?_⟩
      · show dfsVisit t (Nat.succ f) u vis stk = .ok (vis₂, stk)
        rw [dfsVisit]
        simp only [if_neg hunv]
        rw [heqLoop]
        simp [List.erase_cons_head]
      · refine ⟨fun x h => hm2 x (List.mem_cons_of_mem _ h),
          hm2 u (List.mem_cons_self _ _), hnd2, hk2, ?_, ?_⟩
        · intro x hx
          rcases hsound2 x hx with rfl | hx0 | ⟨c, hc, hreach⟩
          · exact Or.inr Relation.ReflTransGen.refl
          · exact Or.inl hx0
          · exact Or.inr (Relation.ReflTransGen.head hc hreach)
        · intro x hx hxs ch hch
          by_cases hxu : x = u
          · subst hxu
            exact hch2 ch hch
          · exact hcl2 x hx (by
              intro hmem
              rcases List.mem_cons.mp hmem with h | h
              · exact hxu h
              · exact hxs h) ch hch

/-! ## Characterizing `validate` -/

theorem nodeChecks_ok_iff (t : ToQ) (l : List (NodeId × ToQNode)) :
    nodeChecks t l = .ok () ↔
      ∀ kv ∈ l, kv.2.id = kv.1 ∧ (∀ p, kv.2.parent = some p → p ∈ t.keys) ∧
        kv.2.parent ≠ some kv.1 := by
  induction l with
  | nil => simp [nodeChecks]
  | cons kv rest ih =>
    rcases kv with ⟨nid, node⟩
    rw [nodeChecks]
    constructor
    · intro h
      split at h
      · cases h
      · next hid =>
        rw [Decidable.not_not] at hid
        split at h
        · next p hp =>
          split at h
          · cases h
          · next hpk =>
            rw [Decidable.not_not] at hpk
            split at h
            · cases h
            · next hself =>
              intro kv' hkv'
              rcases List.mem_cons.mp hkv' with rfl | hkv'
              · refine ⟨hid, ?_, ?_⟩
                · intro q hq
                  rw [hp] at hq
                  injection hq with hq
                  subst hq
                  exact hpk
                · rw [hp]
                  intro hc
                  injection hc with hc
                  exact hself (by rw [hp, hc])
              · exact (ih.mp h) kv' hkv'
        · next hp =>
          split at h
          · cases h
          · next hself =>
            intro kv' hkv'
            rcases List.mem_cons.mp hkv' with rfl | hkv'
            · refine ⟨hid, ?_, ?_⟩
              · intro q hq
                rw [hp] at hq
                cases hq
              · rw [hp]
                simp
            · exact (ih.mp h) kv' hkv'
    · intro h
      obtain ⟨hid, hpar, hself⟩ := h (nid, node) (List.mem_cons_self _ _)
      rw [if_neg (by simpa using hid)]
      have hrest : nodeChecks t rest = .ok () :=
        ih.mpr (fun kv' hkv' => h kv' (List.mem_cons_of_mem _ hkv'))
      split
      · next p hp =>
        rw [if_neg (by simpa using hpar p hp), if_neg hself]
        exact hrest
      · next hp =>
        rw [if_neg hself]
        exact hrest

theorem parentlessKeys_sublist_keys (t : ToQ) :
    List.Sublist (parentlessKeys t) t.keys :=
  List.Sublist.map Prod.fst (List.filter_sublist t.nodes)

theorem singleton_of_nodup_all_eq {l : List NodeId} {a : NodeId}
    (hnd : l.Nodup) (hall : ∀ x ∈ l, x = a) (hmem : a ∈ l) : l = [a] := by
  cases l with
  | nil => simp at hmem
  | cons x xs =>
    have hx : x = a := hall x (List.mem_cons_self _ _)
    subst hx
    cases xs with
    | nil => rfl
    | cons y ys =>
      have hy : y = x := hall y (by simp)
      exfalso
      exact (List.nodup_cons.mp hnd).1 (hy ▸ List.mem_cons_self y ys : x ∈ y :: ys)

theorem parentless_singleton_iff (t : ToQ) (hnd : t.KeysNodup)
    (hroot : ∃ rn, t.find t.root_id = some rn ∧ rn.parent = Option.none) :
    parentlessKeys t = [t.root_id] ↔
      ∀ kv ∈ t.nodes, kv.2.parent = Option.none → kv.1 = t.root_id := by
  constructor
  · intro h kv hkv hp
    have : kv.1 ∈ parentlessKeys t :=
      List.mem_map.mpr ⟨kv, List.mem_filter.mpr ⟨hkv, by simp [hp]⟩, rfl⟩
    rw [h, List.mem_singleton] at this
    exact this
  · intro h
    obtain ⟨rn, hfind, hrp⟩ := hroot
    apply singleton_of_nodup_all_eq
    · exact (parentlessKeys_sublist_keys t).nodup hnd
    · intro x hx
      rcases List.mem_map.mp hx with ⟨kv, hkv, rfl⟩
      rcases List.mem_filter.mp hkv with ⟨hmem, hp⟩
      exact h kv hmem (by simpa using hp)
    · exact List.mem_map.mpr ⟨(t.root_id, rn), List.mem_filter.mpr
        ⟨find_mem hfind, by simp [hrp]⟩, rfl⟩

theorem parentIter_succ (t : ToQ) (k : Nat) (n : NodeId) :
    parentIter t (k + 1) n =
      match t.find n with
      | some node =>
        match node.parent with
        | some p => parentIter t k p
        | Option.none => Option.none
      | Option.none => Option.none := rfl

theorem parentIter_add (t : ToQ) (a b : Nat) :
    ∀ n, parentIter t (a + b) n = (parentIter t a n).bind (parentIter t b) := by
  induction a with
  | zero => intro n; simp [parentIter]
  | succ a ih =>
    intro n
    rw [show a + 1 + b = (a + b) + 1 by omega]
    rw [parentIter_succ, parentIter_succ]
    cases hf : t.find n with
    | none => rfl
    | some node =>
      show (match node.parent with
        | some p => parentIter t (a + b) p
        | Option.none => Option.none) =
        (match node.parent with
          | some p => parentIter t a p
          | Option.none => Option.none).bind (parentIter t b)
      cases hp : node.parent with
      | none => rfl
      | some p => exact ih p

theorem reach_parentIter (t : ToQ) {n : NodeId}
    (h : Reach t t.root_id n) (hnd : t.KeysNodup) :
    ∃ m, parentIter t m n = some t.root_id := by
  induction h with
  | refl => exact ⟨0, rfl⟩
  | tail hr hc ih =>
    obtain ⟨m, hm⟩ := ih
    rename_i b c
    rcases (mem_childrenOf t hnd).mp hc with ⟨-, node, hfind, hp⟩
    refine ⟨m + 1, ?_⟩
    rw [parentIter_succ, hfind]
    show (match node.parent with
      | some p => parentIter t m p
      | Option.none => Option.none) = some t.root_id
    rw [hp]
    exact hm

theorem parentIter_iterate (t : ToQ) {n : NodeId} {k : Nat}
    (h : parentIter t k n = some n) : ∀ j, parentIter t (j * k) n = some n := by
  intro j
  induction j with
  | zero => simp [parentIter]
  | succ j ih =>
    rw [show (j + 1) * k = j * k + k by ring, parentIter_add, ih]
    simpa using h

theorem no_parent_cycle_of_reach (t : ToQ) (hnd : t.KeysNodup)
    (hroot : ∃ rn, t.find t.root_id = some rn ∧ rn.parent = Option.none)
    {n : NodeId} (hreach : Reach t t.root_id n) {k : Nat} (hk : 0 < k) :
    parentIter t k n ≠ some n := by
  intro hcyc
  obtain ⟨rn, hfind, hrp⟩ := hroot
  obtain ⟨m, hm⟩ := reach_parentIter t hreach hnd
  have hnone : parentIter t (m + 1) n = Option.none := by
    rw [parentIter_add, hm]
    show parentIter t 1 t.root_id = _
    rw [parentIter_succ, hfind]
    show (match rn.parent with
      | some p => parentIter t 0 p
      | Option.none => Option.none) = Option.none
    rw [hrp]
  have hiter := parentIter_iterate t hcyc (m + 1)
  have hge : (m + 1) * k = (m + 1) + ((m + 1) * k - (m + 1)) := by
    have : m + 1 ≤ (m + 1) * k := Nat.le_mul_of_pos_right _ hk
    omega
  rw [hge, parentIter_add, hnone] at hiter
  simp at hiter

theorem mem_of_nodup_length_le {l₁ l₂ : List NodeId} (h₁ : l₁.Nodup)
    (hsub : ∀ x ∈ l₁, x ∈ l₂) (hlen : l₂.length ≤ l₁.length)
    (h₂ : l₂.Nodup) : ∀ x ∈ l₂, x ∈ l₁ := by
  have hfin : l₁.toFinset ⊆ l₂.toFinset := by
    intro x hx
    rw [List.mem_toFinset] at hx ⊢
    exact hsub x hx
  have hcard : l₂.toFinset.card ≤ l₁.toFinset.card := by
    rw [List.toFinset_card_of_nodup h₁, List.toFinset_card_of_nodup h₂]
    exact hlen
  have := Finset.eq_of_subset_of_card_le hfin hcard
  intro x hx
  rw [← List.mem_toFinset, ← this, List.mem_toFinset] at hx
  exact hx

theorem validate_dfs_ok (t : ToQ) (hnd : t.KeysNodup)
    (hroot_mem : t.root_id ∈ t.keys)
    (hroot : ∃ rn, t.find t.root_id = some rn ∧ rn.parent = Option.none) :
    ∃ vis, dfsVisit t (t.nodes.length + 1) t.root_id [] [] = .ok (vis, []) ∧
      DfsOut t t.root_id [] [] vis := by
  have hin : DfsIn t t.root_id [] [] := by
    refine ⟨hroot_mem, by simp, List.nodup_nil, by simp, by simp,
      List.nodup_nil, hroot, ?_⟩
    intro x hx
    simp at hx
  have hmeas : measureOf t [] < t.nodes.length + 1 := by
    unfold measureOf
    have : (t.keys.filter (fun k => decide (k ∉ ([] : List NodeId)))).length ≤
        t.keys.length := List.length_filter_le _ _
    have hk : t.keys.length = t.nodes.length := List.length_map _ _
    omega
  exact dfsVisit_spec t hnd (t.nodes.length + 1) t.root_id [] [] hin hmeas

theorem reach_mem_of_closed (t : ToQ) {vis : List NodeId}
    (hroot : t.root_id ∈ vis) (hclosed : ClosedE t vis []) {n : NodeId}
    (h : Reach t t.root_id n) : n ∈ vis := by
  induction h with
  | refl => exact hroot
  | tail hr hc ih => exact hclosed _ ih (by simp) _ hc

theorem validate_ok_iff_wf (t : ToQ) (hnd : t.KeysNodup) :
    t.validate = .ok () ↔ WellFormed t := by
  constructor
  · intro h
    unfold ToQ.validate at h
    split at h
    · cases h
    · next hmem =>
      rw [Decidable.not_not] at hmem
      split at h
      · cases h
      · next hnc =>
        split at h
        · cases h
        · next rootNode hfind =>
          split at h
          · cases h
          · next hrp =>
            rw [Decidable.not_not] at hrp
            split at h
            · split at h <;> cases h
            · next hpl =>
              rw [Decidable.not_not] at hpl
              split at h
              · cases h
              · next vis stk' hdfs =>
                split at h
                · cases h
                · next hlen =>
                  rw [Decidable.not_not] at hlen
                  have hroot : ∃ rn, t.find t.root_id = some rn ∧
                      rn.parent = Option.none := ⟨rootNode, hfind, hrp⟩
                  obtain ⟨vis', heq', hmono, huv, hvnd, hvk, hsound, hcl⟩ :=
                    validate_dfs_ok t hnd hmem hroot
                  rw [heq'] at hdfs
                  injection hdfs with hdfs1
                  injection hdfs1 with hv hs
                  rw [← hv] at hlen
                  have hreach : ∀ n ∈ t.keys, Reach t t.root_id n := by
                    have hklen : t.keys.length ≤ vis'.length := by
                      rw [hlen]
                      exact le_of_eq (List.length_map _ _)
                    have hcover := mem_of_nodup_length_le hvnd hvk hklen hnd
                    intro n hn
                    rcases hsound n (hcover n hn) with h0 | hr
                    · simp at h0
                    · exact hr
                  refine ⟨hmem, ?_, ?_, ?_, hroot, ?_, ?_, hreach⟩
                  · intro kv hkv
                    exact ((nodeChecks_ok_iff t t.nodes).mp hnc kv hkv).1
                  · intro kv hkv
                    exact ((nodeChecks_ok_iff t t.nodes).mp hnc kv hkv).2.1
                  · intro kv hkv
                    exact ((nodeChecks_ok_iff t t.nodes).mp hnc kv hkv).2.2
                  · exact (parentless_singleton_iff t hnd hroot).mp hpl
                  · intro n hn k hk
                    exact no_parent_cycle_of_reach t hnd hroot (hreach n hn) hk
  · rintro ⟨hmem, hid, hpar, hself, hroot, hpl, hcyc, hreach⟩
    obtain ⟨rn, hfind, hrp⟩ := hroot
    have hncEq : nodeChecks t t.nodes = .ok () :=
      (nodeChecks_ok_iff t t.nodes).mpr
        (fun kv hkv => ⟨hid kv hkv, hpar kv hkv, hself kv hkv⟩)
    have hplEq : parentlessKeys t = [t.root_id] :=
      (parentless_singleton_iff t hnd ⟨rn, hfind, hrp⟩).mpr hpl
    obtain ⟨vis, heq, hmono, huv, hvnd, hvk, hsound, hcl⟩ :=
      validate_dfs_ok t hnd hmem ⟨rn, hfind, hrp⟩
    have hcover : ∀ k ∈ t.keys, k ∈ vis := fun k hk =>
      reach_mem_of_closed t huv hcl (hreach k hk)
    have hlen : vis.length = t.nodes.length := by
      have h1 : vis.toFinset = t.keys.toFinset := by
        apply Finset.Subset.antisymm
        · intro x hx
          rw [List.mem_toFinset] at hx ⊢
          exact hvk x hx
        · intro x hx
          rw [List.mem_toFinset] at hx ⊢
          exact hcover x hx
      have h2 : vis.length = vis.toFinset.card :=
        (List.toFinset_card_of_nodup hvnd).symm
      have h3 : t.keys.length = t.keys.toFinset.card :=
        (List.toFinset_card_of_nodup hnd).symm
      rw [h2, h1, ← h3]
      exact List.length_map _ _
    unfold ToQ.validate
    rw [if_neg (by simpa using hmem), hncEq, hfind, hplEq, heq]
    simp [hrp, hlen]

/-- C5: `validate` returns without error exactly on well-formed trees — it
raises if and only if one of the listed structural violations holds (root
id absent; key/id mismatch; self-parent; dangling parent; the designated
root not the unique parentless node; a parent-link cycle; an unreachable
node), and the embedding is a pure function, so a passing validation
changes nothing.  The checks run in source order, reporting the first
violation found. -/
theorem c5_validate_iff_wellformed (t : ToQ) (hnd : t.KeysNodup) :
    t.validate = .ok () ↔ WellFormed t :=
  validate_ok_iff_wf t hnd

theorem nodeChecks_no_cycle (t : ToQ) (l : List (NodeId × ToQNode))
    (u v : NodeId) : nodeChecks t l ≠ .error (.cycle u v) := by
  induction l with
  | nil => simp [nodeChecks]
  | cons kv rest ih =>
    rcases kv with ⟨nid, node⟩
    rw [nodeChecks]
    split
    · simp
    · split
      · split
        · simp
        · split
          · simp
          · exact ih
      · split
        · simp
        · exact ih

/-- C9: `validate` never raises its `Cycle detected` error on any tree
value: once the per-node and root checks have passed, a child of the node
being expanded can never already lie on the DFS stack (each node is the
child of at most one node, and the stack is an ancestor chain), so the
cycle branch of the DFS is unreachable; a tree whose parent links do form
a cycle is rejected by the unreachable-nodes check instead. -/
theorem c9_no_cycle_error (t : ToQ) (hnd : t.KeysNodup) (u v : NodeId) :
    t.validate ≠ .error (.cycle u v) := by
  intro h
  unfold ToQ.validate at h
  split at h
  · simp at h
  · next hmem =>
    rw [Decidable.not_not] at hmem
    split at h
    · next e heq =>
      injection h with h'
      subst h'
      exact nodeChecks_no_cycle t t.nodes u v heq
    · split at h
      · simp at h
      · next rootNode hfind =>
        split at h
        · simp at h
        · next hrp =>
          rw [Decidable.not_not] at hrp
          split at h
          · split at h <;> simp at h
          · split at h
            · next e heq =>
              obtain ⟨vis, heq', -⟩ :=
                validate_dfs_ok t hnd hmem ⟨rootNode, hfind, hrp⟩
              rw [heq'] at heq
              cases heq
            · split at h <;> simp at h

/-- Witness for C5 at the concrete three-node tree. -/
theorem c5_validate_witness :
    tThree.validate = .ok () ↔ WellFormed tThree :=
  c5_validate_iff_wellformed tThree (by decide)

/-- Witness for C9 at a concrete tree whose parent links form a cycle. -/
theorem c9_no_cycle_witness : tCycle.validate ≠ .error (.cycle 2 3) :=
  c9_no_cycle_error tCycle (by decide) 2 3

/-! ## The post-order traversal of `evaluate_toq` -/

/-- The recursive `dfs` of `_postorder` never runs out of the fuel chosen
by the embedding, and produces a postorder extension of the accumulated
order covering `n` and everything reachable from it. -/
theorem postDfs_spec (t : ToQ) (hnd : t.KeysNodup) :
    ∀ fuel n vis ord pend, PostIn t n vis ord pend →
      measureOf t vis + 1 ≤ fuel →
      ∃ vis' ord', postDfs t fuel n (vis, ord) = some (vis', ord') ∧
        PostOut t n vis ord pend vis' ord' := by
  intro fuel
  induction fuel using Nat.strong_induction_on with
  | _ fuel ih =>
    intro n vis ord pend hin hmeas
    obtain ⟨hnk, hvnd, hond, hvk, hviseq, hdisj, hpnd, hnp, hchain, hordok⟩ := hin
    cases fuel with
    | zero => omega
    | succ f =>
      rw [postDfs]
      by_cases hnv : n ∈ vis
      · rw [if_pos hnv]
        have hno : n ∈ ord := by
          rcases (hviseq n).mp hnv with h | h
          · exact h
          · exact absurd h hnp
        exact ⟨vis, ord, rfl, ⟨[], by simp⟩, fun x h => h, hvnd, hond, hvk,
          hviseq, hdisj, hno, hordok, fun x h => Or.inl h⟩
      · rw [if_neg hnv]
        have hpnd' : (n :: pend).Nodup := List.nodup_cons.mpr ⟨hnp, hpnd⟩
        have loop : ∀ cs, (∀ c ∈ cs, c ∈ t.childrenOf n) →
            ∀ vis₀ ord₀,
              (∀ x ∈ n :: vis, x ∈ vis₀) → vis₀.Nodup → ord₀.Nodup →
              (∀ x ∈ vis₀, x ∈ t.keys) →
              (∀ x, x ∈ vis₀ ↔ x ∈ ord₀ ∨ x ∈ n :: pend) →
              (∀ x ∈ ord₀, x ∉ n :: pend) →
              OrdOK t ord₀ →
              (∀ x ∈ vis₀, x ∈ n :: vis ∨ ∃ c ∈ t.childrenOf n, Reach t c x) →
              ∃ vis₁ ord₁,
                postLoop (postDfs t f) cs (vis₀, ord₀) = some (vis₁, ord₁) ∧
                (∀ x ∈ n :: vis, x ∈ vis₁) ∧ vis₁.Nodup ∧ ord₁.Nodup ∧
                (∀ x ∈ vis₁, x ∈ t.keys) ∧
                (∀ x, x ∈ vis₁ ↔ x ∈ ord₁ ∨ x ∈ n :: pend) ∧
                (∀ x ∈ ord₁, x ∉ n :: pend) ∧ OrdOK t ord₁ ∧
                (∃ d, ord₁ = ord₀ ++ d) ∧
                (∀ x ∈ vis₁, x ∈ n :: vis ∨ ∃ c ∈ t.childrenOf n, Reach t c x) ∧
                (∀ c ∈ cs, c ∈ ord₁) := by
          intro cs
          induction cs with
          | nil =>
            intro _ vis₀ ord₀ h1 h2 h3 h4 h5 h6 h7 h9
            exact ⟨vis₀, ord₀, rfl, h1, h2, h3, h4, h5, h6, h7, ⟨[], by simp⟩,
              h9, by simp⟩
          | cons c cs' ihc =>
            intro hcs vis₀ ord₀ h1 h2 h3 h4 h5 h6 h7 h9
            have hcchild : c ∈ t.childrenOf n := hcs c (List.mem_cons_self _ _)
            obtain ⟨-, cnode, hcfind, hcpar⟩ := (mem_childrenOf t hnd).mp hcchild
            have hcnp : c ∉ n :: pend :=
              no_cycle_in_stack t hnd hchain hpnd' hcchild
            have hpin : PostIn t c vis₀ ord₀ (n :: pend) :=
              ⟨childrenOf_subset_keys t hcchild, h2, h3, h4, h5, h6, hpnd',
                hcnp, ⟨⟨cnode, hcfind, hcpar⟩, hchain⟩, h7⟩
            have hmeas0 : measureOf t vis₀ + 1 ≤ f := by
              have hle : measureOf t vis₀ ≤ measureOf t (n :: vis) :=
                measure_mono t h1
              have hlt : measureOf t (n :: vis) < measureOf t vis :=
                measure_lt t hnk hnv
              omega
            obtain ⟨vis₁, ord₁, heq, hd1, hm1, hnd1, hond1, hk1, hve1, hdj1,
              hcord1, hok1, hsound1⟩ :=
              ih f (Nat.lt_succ_self f) c vis₀ ord₀ (n :: pend) hpin hmeas0
            rw [postLoop, heq]
            have h1' : ∀ x ∈ n :: vis, x ∈ vis₁ := fun x h => hm1 x (h1 x h)
            have h9' : ∀ x ∈ vis₁,
                x ∈ n :: vis ∨ ∃ c' ∈ t.childrenOf n, Reach t c' x := by
              intro x hx
              rcases hsound1 x hx with hx0 | hreach
              · exact h9 x hx0
              · exact Or.inr ⟨c, hcchild, hreach⟩
            obtain ⟨vis₂, ord₂, heq2, g1, g2, g3, g4, g5, g6, g7, gext, g9, gall⟩ :=
              ihc (fun c' h => hcs c' (List.mem_cons_of_mem _ h)) vis₁ ord₁
                h1' hnd1 hond1 hk1 hve1 hdj1 hok1 h9'
            refine ⟨vis₂, ord₂, heq2, g1, g2, g3, g4, g5, g6, g7, ?_, g9, ?_⟩
            · obtain ⟨d0, hd0⟩ := hd1
              obtain ⟨d, hd⟩ := gext
              exact ⟨d0 ++ d, by rw [hd, hd0, List.append_assoc]⟩
            · intro c' hc'
              rcases List.mem_cons.mp hc' with rfl | hc'
              · obtain ⟨d, hd⟩ := gext
                rw [hd]
                exact List.mem_append_left _ hcord1
              · exact gall c' hc'
        have hinit5 : ∀ x, x ∈ n :: vis ↔ x ∈ ord ∨ x ∈ n :: pend := by
          intro x
          constructor
          · intro hx
            rcases List.mem_cons.mp hx with rfl | hx
            · exact Or.inr (List.mem_cons_self _ _)
            · rcases (hviseq x).mp hx with h | h
              · exact Or.inl h
              · exact Or.inr (List.mem_cons_of_mem _ h)
          · intro hx
            rcases hx with h | h
            · exact List.mem_cons_of_mem _ ((hviseq x).mpr (Or.inl h))
            · rcases List.mem_cons.mp h with rfl | h
              · exact List.mem_cons_self _ _
              · exact List.mem_cons_of_mem _ ((hviseq x).mpr (Or.inr h))
        have hinit6 : ∀ x ∈ ord, x ∉ n :: pend := by
          intro x hx hmem
          rcases List.mem_cons.mp hmem with rfl | hmem
          · exact hnv ((hviseq x).mpr (Or.inl hx))
          · exact hdisj x hx hmem
        obtain ⟨vis₂, ord₂, heqL, l1, l2, l3, l4, l5, l6, l7, lext, l9, lall⟩ :=
          loop (t.childrenOf n) (fun c h => h) (n :: vis) ord
            (fun x h => h) (List.nodup_cons.mpr ⟨hnv, hvnd⟩) hond
            (by
              intro x hx
              rcases List.mem_cons.mp hx with rfl | hx
              · exact hnk
              · exact hvk x hx)
            hinit5 hinit6 hordok (fun x h => Or.inl h)
        have hnord2 : n ∉ ord₂ := fun h => l6 n h (List.mem_cons_self _ _)
        refine ⟨vis₂, ord₂ ++ [n], ?_, ?_, ?_, l2, ?_, l4, ?_, ?_, ?_, ?_, ?_⟩
        · rw [heqL]
        · obtain ⟨d, hd⟩ := lext
          exact ⟨d ++ [n], by rw [hd, List.append_assoc]⟩
        · exact fun x h => l1 x (List.mem_cons_of_mem _ h)
        · exact List.Nodup.append l3 (List.nodup_singleton n)
            (by
              intro x hx hx'
              rw [List.mem_singleton] at hx'
              subst hx'
              exact hnord2 hx)
        · intro x
          constructor
          · intro hx
            rcases (l5 x).mp hx with h | h
            · exact Or.inl (List.mem_append_left _ h)
            · rcases List.mem_cons.mp h with rfl | h
              · exact Or.inl (List.mem_append_right _ (List.mem_singleton_self _))
              · exact Or.inr h
          · intro hx
            rcases hx with h | h
            · rcases List.mem_append.mp h with h | h
              · exact (l5 x).mpr (Or.inl h)
              · rw [List.mem_singleton] at h
                subst h
                exact (l5 x).mpr (Or.inr (List.mem_cons_self _ _))
            · exact (l5 x).mpr (Or.inr (List.mem_cons_of_mem _ h))
        · intro x hx
          rcases List.mem_append.mp hx with h | h
          · exact fun hp => l6 x h (List.mem_cons_of_mem _ hp)
          · rw [List.mem_singleton] at h
            subst h
            exact hnp
        · exact List.mem_append_right _ (List.mem_singleton_self _)
        · intro p hp c hc
          rcases List.mem_append.mp hp with hp' | hp'
          · obtain ⟨hcm, hidx⟩ := l7 p hp' c hc
            refine ⟨List.mem_append_left _ hcm, ?_⟩
            rw [List.indexOf_append_of_mem hcm, List.indexOf_append_of_mem hp']
            exact hidx
          · rw [List.mem_singleton] at hp'
            subst hp'
            have hcm : c ∈ ord₂ := lall c hc
            refine ⟨List.mem_append_left _ hcm, ?_⟩
            rw [List.indexOf_append_of_mem hcm,
              List.indexOf_append_of_not_mem hnord2]
            simp only [List.indexOf_cons_self, Nat.add_zero]
            exact List.indexOf_lt_length.mpr hcm
        · intro x hx
          rcases l9 x hx with h | h
          · rcases List.mem_cons.mp h with rfl | h
            · exact Or.inr Relation.ReflTransGen.refl
            · exact Or.inl h
          · rcases h with ⟨c, hc, hreach⟩
            exact Or.inr (Relation.ReflTransGen.head hc hreach)

theorem ordok_mem_of_reach (t : ToQ) {ord : List NodeId}
    (hroot : t.root_id ∈ ord) (hok : OrdOK t ord) {n : NodeId}
    (h : Reach t t.root_id n) : n ∈ ord := by
  induction h with
  | refl => exact hroot
  | tail hr hc ih => exact (hok _ ih _ hc).1

/-- `_postorder` on a tree whose pre-DFS checks pass: it returns a
duplicate-free order covering exactly the reachable keys, children always
before parents. -/
theorem postorder_spec (t : ToQ) (hnd : t.KeysNodup)
    (hroot_mem : t.root_id ∈ t.keys)
    (hroot : ∃ rn, t.find t.root_id = some rn ∧ rn.parent = Option.none)
    (hreach : ∀ k ∈ t.keys, Reach t t.root_id k) :
    ∃ ord, postorder t = some ord ∧ ord.Nodup ∧
      (∀ k, k ∈ ord ↔ k ∈ t.keys) ∧ OrdOK t ord := by
  have hin : PostIn t t.root_id [] [] [] := by
    refine ⟨hroot_mem, List.nodup_nil, List.nodup_nil, by simp, by simp,
      by simp, List.nodup_nil, by simp, hroot, ?_⟩
    intro p hp
    simp at hp
  have hmeas : measureOf t [] + 1 ≤ t.nodes.length + 1 := by
    unfold measureOf
    have h1 : (t.keys.filter (fun k => decide (k ∉ ([] : List NodeId)))).length ≤
        t.keys.length := List.length_filter_le _ _
    have h2 : t.keys.length = t.nodes.length := List.length_map _ _
    omega
  obtain ⟨vis', ord', heq, hext, hmono, hvnd, hond, hvk, hviseq, hdisj, hro,
    hok, hsound⟩ := postDfs_spec t hnd (t.nodes.length + 1) t.root_id [] [] [] hin hmeas
  refine ⟨ord', ?_, hond, ?_, hok⟩
  · unfold postorder
    rw [heq]
    rfl
  · intro k
    constructor
    · intro hk
      have hkv : k ∈ vis' := (hviseq k).mpr (Or.inl hk)
      exact hvk k hkv
    · intro hk
      exact ordok_mem_of_reach t hro hok (hreach k hk)

theorem children_in_prefix (t : ToQ) {ord done rest' : List NodeId}
    {n : NodeId} (hnd : ord.Nodup) (hok : OrdOK t ord)
    (hsplit : ord = done ++ n :: rest') :
    ∀ c ∈ t.childrenOf n, c ∈ done := by
  intro c hc
  have hnord : n ∈ ord := by rw [hsplit]; simp
  obtain ⟨hcord, hidx⟩ := hok n hnord c hc
  have hndone : n ∉ done := by
    intro hmem
    rw [hsplit] at hnd
    rcases List.nodup_append.mp hnd with ⟨-, -, hdis⟩
    exact hdis hmem (List.mem_cons_self _ _)
  by_contra hcdone
  have hcsuffix : c ∈ n :: rest' := by
    rw [hsplit] at hcord
    rcases List.mem_append.mp hcord with h | h
    · exact absurd h hcdone
    · exact h
  have hidxn : ord.indexOf n = done.length := by
    rw [hsplit, List.indexOf_append_of_not_mem hndone]
    simp
  have hidxc : done.length ≤ ord.indexOf c := by
    rw [hsplit, List.indexOf_append_of_not_mem hcdone]
    omega
  omega

theorem lookup_isSome_of_mem_keys {β : Type} {l : List (NodeId × β)} {k : NodeId}
    (h : k ∈ l.map Prod.fst) : ∃ v, l.lookup k = some v := by
  induction l with
  | nil => simp at h
  | cons p rest ih =>
    rcases p with ⟨a, b⟩
    by_cases hk : k = a
    · subst hk
      exact ⟨b, by rw [List.lookup, show (k == k) = true from by simp]⟩
    · rw [List.map_cons, List.mem_cons] at h
      rcases h with h | h


      · exact absurd h hk
      · obtain ⟨v, hv⟩ := ih h
        exact ⟨v, by rw [List.lookup, show (k == a) = false from by simp [hk]]; exact hv⟩

theorem lookup_append_left {α β : Type} [BEq α] [LawfulBEq α]
    {l : List (α × β)} {k : α} {v : β} (h : l.lookup k = some v)
    (l' : List (α × β)) : (l ++ l').lookup k = some v := by
  induction l with
  | nil => simp [List.lookup] at h
  | cons p rest ih =>
    rcases p with ⟨a, b⟩
    rw [List.cons_append, List.lookup]
    rw [List.lookup] at h
    cases hk : (k == a) with
    | true => rw [hk] at h; exact h
    | false => rw [hk] at h; exact ih h

theorem gather_ok (answers : List (NodeId × Answer)) (cs : List NodeId)
    (h : ∀ c ∈ cs, ∃ a, answers.lookup c = some a) :
    gatherChildAnswers answers cs =
      .ok (cs.map (fun c =>
        (c, ((answers.lookup c).getD ⟨"", Option.none⟩).text))) := by
  induction cs with
  | nil => rfl
  | cons c cs' ih =>
    obtain ⟨a, ha⟩ := h c (List.mem_cons_self _ _)
    rw [gatherChildAnswers, ha]
    rw [ih (fun c' hc' => h c' (List.mem_cons_of_mem _ hc'))]
    simp [Except.map, ha]

theorem lookup_append_self {β : Type} {l : List (NodeId × β)} {k : NodeId}
    (h : k ∉ l.map Prod.fst) (v : β) : (l ++ [(k, v)]).lookup k = some v := by
  induction l with
  | nil => rw [List.nil_append, List.lookup, show (k == k) = true from by simp]
  | cons p rest ih =>
    rcases p with ⟨a, b⟩
    rw [List.map_cons, List.mem_cons] at h
    push_neg at h
    rw [List.cons_append, List.lookup, show (k == a) = false from by simp [h.1]]
    exact ih h.2

theorem mem_prefix_of_indexOf_lt {ord done rest : List NodeId} {x : NodeId}
    (hsplit : ord = done ++ rest) (hx : x ∈ ord)
    (hidx : ord.indexOf x < done.length) : x ∈ done := by
  by_contra hxd
  have hxr : x ∈ rest := by
    rw [hsplit] at hx
    rcases List.mem_append.mp hx with h | h
    · exact absurd h hxd
    · exact h
  have : done.length ≤ ord.indexOf x := by
    rw [hsplit, List.indexOf_append_of_not_mem hxd]
    omega
  omega

theorem indexOf_lt_of_mem_prefix {ord done rest : List NodeId} {x : NodeId}
    (hsplit : ord = done ++ rest) (hx : x ∈ done) :
    ord.indexOf x < done.length := by
  rw [hsplit, List.indexOf_append_of_mem hx]
  exact List.indexOf_lt_length.mpr hx

theorem children_in_done (t : ToQ) {ord done rest : List NodeId} {n : NodeId}
    (hok : OrdOK t ord) (hsplit : ord = done ++ rest) (hn : n ∈ done) :
    ∀ c ∈ t.childrenOf n, c ∈ done := by
  intro c hc
  have hnord : n ∈ ord := by rw [hsplit]; exact List.mem_append.mpr (Or.inl hn)
  obtain ⟨hcord, hidx⟩ := hok n hnord c hc
  have hidxn := indexOf_lt_of_mem_prefix hsplit hn
  exact mem_prefix_of_indexOf_lt hsplit hcord (by omega)

theorem nodeEval_extend (t : ToQ) (answerer : Answerer) (sub : Substituter)
    (context : Option String) {ord done rest : List NodeId}
    (hok : OrdOK t ord) (hsplit : ord = done ++ rest)
    {trace : EvalTrace} (hrq : trace.rendered_question.map Prod.fst = done)
    (hans : trace.answer.map Prod.fst = done)
    {n : NodeId} (hn : n ∈ done)
    (h : NodeEval t answerer sub context trace n) (nid : NodeId)
    (q : String) (a : Answer) :
    NodeEval t answerer sub context
      ⟨trace.rendered_question ++ [(nid, q)], trace.answer ++ [(nid, a)]⟩ n := by
  intro node hfind
  obtain ⟨q₀, hq₀, ha₀, hleaf, hint⟩ := h node hfind
  refine ⟨q₀, lookup_append_left hq₀ _, lookup_append_left ha₀ _, hleaf, ?_⟩
  intro hne
  rw [hint hne]
  congr 1
  refine List.map_congr_left ?_
  intro c hc
  have hcd : c ∈ done := children_in_done t hok hsplit hn c hc
  obtain ⟨v, hv⟩ := lookup_isSome_of_mem_keys (hans ▸ hcd)
  rw [show (trace.answer ++ [(nid, a)]).lookup c = some v from
    lookup_append_left hv _, hv]

theorem evalLoop_spec (t : ToQ) (hnd : t.KeysNodup) (answerer : Answerer)
    (sub : Substituter) (context : Option String)
    {ord : List NodeId} (hord : ord.Nodup) (hok : OrdOK t ord)
    (hkeys : ∀ k ∈ ord, k ∈ t.keys) :
    ∀ rest done trace calls,
      ord = done ++ rest →
      trace.rendered_question.map Prod.fst = done →
      trace.answer.map Prod.fst = done →
      (∀ n ∈ done, NodeEval t answerer sub context trace n) →
      calls = trace.rendered_question.map (fun kv => (kv.2, context)) →
      ∃ trace',
        evalLoop t answerer sub context rest trace calls =
          (.ok trace',
           trace'.rendered_question.map (fun kv => (kv.2, context))) ∧
        trace'.rendered_question.map Prod.fst = ord ∧
        trace'.answer.map Prod.fst = ord ∧
        (∀ n ∈ ord, NodeEval t answerer sub context trace' n) := by
  intro rest
  induction rest with
  | nil =>
    intro done trace calls hsplit hrq hans hdone hcalls
    rw [List.append_nil] at hsplit
    subst hsplit
    exact ⟨trace, by rw [evalLoop, hcalls], hrq, hans, hdone⟩
  | cons nid rest' ih =>
    intro done trace calls hsplit hrq hans hdone hcalls
    have hnidord : nid ∈ ord := by rw [hsplit]; simp
    have hnidkeys : nid ∈ t.keys := hkeys nid hnidord
    obtain ⟨node, hfind⟩ := lookup_isSome_of_mem_keys hnidkeys
    have hfindT : t.find nid = some node := hfind
    have hnidnotdone : nid ∉ done := by
      intro hmem
      rw [hsplit] at hord
      rcases List.nodup_append.mp hord with ⟨-, -, hdis⟩
      exact hdis hmem (List.mem_cons_self _ _)
    have hchdone : ∀ c ∈ t.childrenOf nid, c ∈ done :=
      children_in_prefix t hord hok hsplit
    have hchsome : ∀ c ∈ t.childrenOf nid, ∃ a, trace.answer.lookup c = some a := by
      intro c hc
      exact lookup_isSome_of_mem_keys (hans ▸ hchdone c hc)
    have hgather := gather_ok trace.answer (t.childrenOf nid) hchsome
    set gathered := (t.childrenOf nid).map (fun c =>
      (c, ((trace.answer.lookup c).getD ⟨"", Option.none⟩).text)) with hgdef
    set q := if (t.childrenOf nid).isEmpty then node.text
      else sub node.text gathered with hqdef
    set a := answerer q context with hadef
    set trace2 : EvalTrace :=
      ⟨trace.rendered_question ++ [(nid, q)], trace.answer ++ [(nid, a)]⟩
      with htr2
    have hstep : evalLoop t answerer sub context (nid :: rest') trace calls =
        evalLoop t answerer sub context rest' trace2 (calls ++ [(q, context)]) := by
      rw [evalLoop, hfindT]
      simp only [hgather]
    have hsplit2 : ord = (done ++ [nid]) ++ rest' := by
      rw [hsplit, List.append_assoc]
      rfl
    have hrq2 : trace2.rendered_question.map Prod.fst = done ++ [nid] := by
      rw [htr2]
      simp [hrq]
    have hans2 : trace2.answer.map Prod.fst = done ++ [nid] := by
      rw [htr2]
      simp [hans]
    have hnewEval : NodeEval t answerer sub context trace2 nid := by
      intro node' hfind'
      rw [hfindT] at hfind'
      injection hfind' with hnode'
      subst hnode'
      refine ⟨q, ?_, ?_, ?_, ?_⟩
      · rw [htr2]
        exact lookup_append_self (hrq ▸ hnidnotdone) q
      · rw [htr2, hadef]
        exact lookup_append_self (hans ▸ hnidnotdone) a
      · intro hch
        rw [hqdef, hch]
        simp
      · intro hch
        have hie : (t.childrenOf nid).isEmpty = false := by
          cases hcs : t.childrenOf nid with
          | nil => exact absurd hcs hch
          | cons c cs => simp [hcs]
        rw [hqdef, hie]
        simp only [Bool.false_eq_true, if_false]
        congr 1
        rw [hgdef]
        refine List.map_congr_left ?_
        intro c hc
        obtain ⟨v, hv⟩ := hchsome c hc
        rw [show (trace.answer ++ [(nid, a)]).lookup c = some v from
          lookup_append_left hv _, hv]
    have hdone2 : ∀ n ∈ done ++ [nid], NodeEval t answerer sub context trace2 n := by
      intro n hn
      rcases List.mem_append.mp hn with hn | hn
      · exact nodeEval_extend t answerer sub context hok hsplit hrq hans hn
          (hdone n hn) nid q a
      · rw [List.mem_singleton] at hn
        subst hn
        exact hnewEval
    have hcalls2 : calls ++ [(q, context)] =
        trace2.rendered_question.map (fun kv => (kv.2, context)) := by
      rw [htr2]
      simp [hcalls]
    obtain ⟨trace', h1, h2, h3, h4⟩ :=
      ih (done ++ [nid]) trace2 (calls ++ [(q, context)]) hsplit2 hrq2 hans2
        hdone2 hcalls2
    exact ⟨trace', by rw [hstep]; exact h1, h2, h3, h4⟩

/-- C3: on every valid tree (validation passes; keys distinct as in a
Python dict), `evaluate_toq` traverses the nodes in post-order — the
traversal order covers every node exactly once and lists each child before
its parent — and the answerer-call log is exactly one call per node, in
traversal order, carrying that node's rendered question and the shared
context; a leaf's rendered question is its raw template text and an
internal node's is the substituter applied to its template and the mapping
from child id to child answer text, the answer recorded for each node
being the answerer's reply to its rendered question. -/
theorem c3_evaluate_postorder_once_per_node (t : ToQ) (answerer : Answerer)
    (substituter : Option Substituter) (context : Option String)
    (hnd : t.KeysNodup) (hval : t.validate = .ok ()) :
    ∃ ord trace,
      postorder t = some ord ∧
      evaluate_toq t answerer substituter context =
        (.ok trace,
         trace.rendered_question.map (fun kv => (kv.2, context))) ∧
      ord.Nodup ∧ (∀ k, k ∈ ord ↔ k ∈ t.keys) ∧
      (∀ p ∈ ord, ∀ c ∈ t.childrenOf p, ord.indexOf c < ord.indexOf p) ∧
      trace.rendered_question.map Prod.fst = ord ∧
      trace.answer.map Prod.fst = ord ∧
      (∀ n ∈ ord, NodeEval t answerer
        (substituter.getD default_substituter) context trace n) := by
  obtain ⟨hroot_mem, -, -, -, hrootnode, -, -, hreach⟩ :=
    (validate_ok_iff_wf t hnd).mp hval
  obtain ⟨ord, hpost, hnodup, hcover, hok⟩ :=
    postorder_spec t hnd hroot_mem hrootnode hreach
  have hkeys : ∀ k ∈ ord, k ∈ t.keys := fun k hk => (hcover k).mp hk
  obtain ⟨trace, hrun, h2, h3, h4⟩ :=
    evalLoop_spec t hnd answerer (substituter.getD default_substituter)
      context hnodup hok hkeys ord [] ⟨[], []⟩ [] rfl rfl rfl
      (by intro n hn; simp at hn) rfl
  have heval : evaluate_toq t answerer substituter context =
      evalLoop t answerer (substituter.getD default_substituter) context
        ord ⟨[], []⟩ [] := by
    rw [evaluate_toq, hval]
    simp only [hpost]
  exact ⟨ord, trace, hpost, by rw [heval]; exact hrun, hnodup, hcover,
    fun p hp c hc => (hok p hp c hc).2, h2, h3, h4⟩

/-- Witness for C3 at the concrete three-node tree with a concrete echo
answerer, the default substituter, and no context. -/
theorem c3_evaluate_witness :
    ∃ ord trace,
      postorder tThree = some ord ∧
      evaluate_toq tThree (fun q _ => ⟨q, Option.none⟩) Option.none
          Option.none =
        (.ok trace,
         trace.rendered_question.map (fun kv => (kv.2, Option.none))) ∧
      ord.Nodup ∧ (∀ k, k ∈ ord ↔ k ∈ tThree.keys) ∧
      (∀ p ∈ ord, ∀ c ∈ tThree.childrenOf p,
        ord.indexOf c < ord.indexOf p) ∧
      trace.rendered_question.map Prod.fst = ord ∧
      trace.answer.map Prod.fst = ord ∧
      (∀ n ∈ ord, NodeEval tThree (fun q _ => ⟨q, Option.none⟩)
        (Option.getD Option.none default_substituter) Option.none trace n) :=
  c3_evaluate_postorder_once_per_node tThree (fun q _ => ⟨q, Option.none⟩)
    Option.none Option.none (by decide) (by decide)

/-- C10: `evaluate_toq` validates its tree before any other work: on a
tree failing validation it surfaces exactly that validation error and its
answerer-call log is empty — the answerer is invoked zero times, for every
answerer — and conversely any successful evaluation implies the tree
passed validation (so every quotient tree evaluated inside
`run_consistency_check` has passed validation). -/
theorem c10_evaluate_validates_first (t : ToQ) (answerer : Answerer)
    (substituter : Option Substituter) (context : Option String) :
    (∀ e, t.validate = .error e →
      evaluate_toq t answerer substituter context =
        (.error (.invalid e), [])) ∧
    (∀ trace calls,
      evaluate_toq t answerer substituter context = (.ok trace, calls) →
      t.validate = .ok ()) := by
  constructor
  · intro e he
    rw [evaluate_toq, he]
  · intro trace calls h
    rw [evaluate_toq] at h
    cases hv : t.validate with
    | error e =>
      rw [hv] at h
      simp at h
    | ok u =>
      cases u
      rfl

/-- Witness for C10 at a concrete malformed tree (parent links of nodes 2
and 3 form a cycle, so both are unreachable from the root). -/
theorem c10_evaluate_witness :
    evaluate_toq tCycle (fun q _ => ⟨q, Option.none⟩) Option.none
        Option.none =
      (.error (.invalid (.unreachable 1 [2, 3])), []) :=
  (c10_evaluate_validates_first tCycle (fun q _ => ⟨q, Option.none⟩)
    Option.none Option.none).1 (.unreachable 1 [2, 3]) (by decide)

theorem dictInsert_append {α β : Type} [DecidableEq α] (k : α) (v : β)
    (l : List (α × β)) (h : k ∉ l.map Prod.fst) :
    dictInsert k v l = l ++ [(k, v)] := by
  induction l with
  | nil => rfl
  | cons p rest ih =>
    rcases p with ⟨a, b⟩
    rw [List.map_cons, List.mem_cons] at h
    push_neg at h
    rw [dictInsert, if_neg (fun hek => h.1 hek.symm), List.cons_append,
      ih h.2]

theorem parseNodeEntry_serialized (n : NodeId) (node : ToQNode) :
    parseNodeEntry (pyIntRepr n) (.dict
      [("id", .int node.id), ("text", .str node.text),
       ("parent", match node.parent with
                  | Option.none => PyVal.none
                  | some p => .int p)]) = .ok (n, node) := by
  rcases node with ⟨ni, nt, np⟩
  cases np with
  | none =>
    unfold parseNodeEntry
    rw [pyParseInt_pyIntRepr]
    rfl
  | some p =>
    unfold parseNodeEntry
    rw [pyParseInt_pyIntRepr]
    rfl

theorem parseNodes_serialized (l : List (NodeId × ToQNode)) :
    ∀ acc, (l.map Prod.fst).Nodup → (∀ kv ∈ l, kv.1 ∉ acc.map Prod.fst) →
      parseNodes (l.map (fun kv =>
        (pyIntRepr kv.1, PyVal.dict
          [("id", .int kv.2.id), ("text", .str kv.2.text),
           ("parent", match kv.2.parent with
                      | Option.none => PyVal.none
                      | some p => .int p)]))) acc = .ok (acc ++ l) := by
  induction l with
  | nil =>
    intro acc _ _
    rw [List.map_nil, parseNodes, List.append_nil]
  | cons kv rest ih =>
    intro acc hnd hdisj
    rw [List.map_cons, parseNodes, parseNodeEntry_serialized]
    show parseNodes _ (dictInsert kv.1 kv.2 acc) = _
    rw [dictInsert_append kv.1 kv.2 acc
      (hdisj kv (List.mem_cons_self _ _))]
    rw [List.map_cons, List.nodup_cons] at hnd
    have hdisj' : ∀ kv' ∈ rest, kv'.1 ∉ (acc ++ [kv]).map Prod.fst := by
      intro kv' hkv'
      rw [List.map_append, List.mem_append]
      push_neg
      refine ⟨hdisj kv' (List.mem_cons_of_mem _ hkv'), ?_⟩
      intro hmem
      rcases List.mem_map.mp hmem with ⟨x, hx, hfst⟩
      rw [List.mem_singleton] at hx
      subst hx
      exact hnd.1 (hfst ▸ List.mem_map.mpr ⟨kv', hkv', rfl⟩)
    rw [ih (acc ++ [kv]) hnd.2 hdisj', List.append_assoc,
      List.singleton_append]

/-- C6: serializing a valid tree and deserializing the result reproduces
it exactly — same root id and the same node ids, texts, and parents (the
very same `nodes` association list, in order).  KeysNodup carves out
Python dict values. -/
theorem c6_json_roundtrip (t : ToQ) (hnd : t.KeysNodup)
    (hval : t.validate = .ok ()) :
    toq_from_json (toq_to_json t) = .ok t := by
  have h1 : (toq_to_json t).lookup "root_id" = some (.int t.root_id) := rfl
  have hparse := parseNodes_serialized t.nodes [] hnd (by simp)
  rw [List.nil_append] at hparse
  unfold toq_from_json toq_to_json
  simp only [List.lookup, show ("root_id" == "root_id") = true from rfl,
    show ("nodes" == "root_id") = false from rfl,
    show ("nodes" == "nodes") = true from rfl, Option.isNone_some,
    Bool.false_eq_true, or_self, if_false, Option.getD_some]
  have hval' : (ToQ.mk t.nodes t.root_id).validate = Except.ok () := hval
  simp only [hparse, hval']

/-- Witness for C6 at the concrete three-node tree. -/
theorem c6_json_roundtrip_witness :
    toq_from_json (toq_to_json tThree) = .ok tThree :=
  c6_json_roundtrip tThree (by decide) (by decide)

theorem insertSorted_perm (x : Int) (l : List Int) :
    (insertSorted x l).Perm (x :: l) := by
  induction l with
  | nil => exact List.Perm.refl _
  | cons y ys ih =>
    rw [insertSorted]
    by_cases h : x ≤ y
    · rw [if_pos h]
    · rw [if_neg h]
      exact (List.Perm.cons y ih).trans (List.Perm.swap x y ys)

theorem sortInts_perm (l : List Int) : (sortInts l).Perm l := by
  induction l with
  | nil => exact List.Perm.refl _
  | cons x xs ih =>
    exact (insertSorted_perm x (sortInts xs)).trans (List.Perm.cons x ih)

theorem length_filter_ne {α : Type} [DecidableEq α] {l : List α} {r : α}
    (hnd : l.Nodup) (hr : r ∈ l) :
    (l.filter (fun k => k ≠ r)).length = l.length - 1 := by
  induction l with
  | nil => cases hr
  | cons a l ih =>
    rw [List.nodup_cons] at hnd
    rcases List.mem_cons.mp hr with heq | hr'
    · subst heq
      have hfe : l.filter (fun k => k ≠ r) = l :=
        List.filter_eq_self.mpr (fun b hb =>
          decide_eq_true (fun h => hnd.1 (h ▸ hb)))
      rw [List.filter_cons, if_neg (by simp), hfe, List.length_cons]
      omega
    · have ha : a ≠ r := fun h => hnd.1 (h ▸ hr')
      have hlen : 1 ≤ l.length := List.length_pos.mpr (by
        intro h
        rw [h] at hr'
        cases hr')
      rw [List.filter_cons, if_pos (decide_eq_true ha)]
      rw [List.length_cons, ih hnd.2 hr', List.length_cons]
      omega

theorem nonRootIds_spec (t : ToQ) (hnd : t.KeysNodup)
    (hroot : t.root_id ∈ t.keys) :
    (sortInts ((t.keys.filter (fun k => k ≠ t.root_id)).dedup)).length =
      t.nodes.length - 1 ∧
    (sortInts ((t.keys.filter (fun k => k ≠ t.root_id)).dedup)).Nodup ∧
    ∀ c ∈ sortInts ((t.keys.filter (fun k => k ≠ t.root_id)).dedup),
      c ∈ t.keys ∧ c ≠ t.root_id := by
  have hfnd : (t.keys.filter (fun k => k ≠ t.root_id)).Nodup :=
    List.Nodup.filter _ hnd
  have hded : (t.keys.filter (fun k => k ≠ t.root_id)).dedup =
      t.keys.filter (fun k => k ≠ t.root_id) := List.Nodup.dedup hfnd
  have hperm : (sortInts ((t.keys.filter (fun k => k ≠ t.root_id)).dedup)).Perm
      (t.keys.filter (fun k => k ≠ t.root_id)) := by
    rw [hded]
    exact sortInts_perm _
  refine ⟨?_, hperm.nodup_iff.mpr hfnd, ?_⟩
  · rw [hperm.length_eq, length_filter_ne hnd hroot]
    have : t.keys.length = t.nodes.length := List.length_map _ _
    omega
  · intro c hc
    have hc' := hperm.mem_iff.mp hc
    rcases List.mem_filter.mp hc' with ⟨hmem, hne⟩
    exact ⟨hmem, by simpa using hne⟩

theorem processPlan_plan (t : ToQ) (answerer : Answerer) (collapser : Collapser)
    (normalizer : Option (String → String)) (substituter : Option Substituter)
    (context : Option String) (cache : Cache)
    (log : List (NodeId × List NodeId)) (plan : CollapsePlan)
    {run : RunRecord} {cache' : Cache} {log' : List (NodeId × List NodeId)}
    (h : processPlan t answerer collapser normalizer substituter context
        cache log plan = (.ok run, cache', log')) :
    run.plan = plan := by
  unfold processPlan at h
  rcases hcr : component_roots t plan with e | roots <;> simp only [hcr] at h
  · simp at h
  · rcases hcc : collapseRoots t plan collapser context roots cache log [] []
      with ⟨cache1, log1, opens, cqs⟩
    simp only [hcc] at h
    rcases hap : apply_collapse_plan t plan cqs with e | collapsed0 <;>
      simp only [hap] at h
    · simp at h
    · rcases hev : evaluate_toq collapsed0.toq answerer substituter context
        with ⟨res, calls⟩
      simp only [hev] at h
      rcases res with e | trace
      · simp at h
      · rcases hla : trace.answer.lookup collapsed0.toq.root_id
          with _ | root_answer <;> simp only [hla] at h
        · simp at h
        · injection h with h1 h2
          injection h1 with h1
          rw [← h1]

theorem runPlans_map_plan (t : ToQ) (answerer : Answerer) (collapser : Collapser)
    (normalizer : Option (String → String)) (substituter : Option Substituter)
    (context : Option String) :
    ∀ (plans : List CollapsePlan) (cache : Cache)
      (log : List (NodeId × List NodeId)) (runs runs' : List RunRecord)
      (cache' : Cache) (log' : List (NodeId × List NodeId)),
      runPlans t answerer collapser normalizer substituter context plans
          cache log runs = (.ok runs', cache', log') →
      runs'.map RunRecord.plan = runs.map RunRecord.plan ++ plans := by
  intro plans
  induction plans with
  | nil =>
    intro cache log runs runs' cache' log' h
    rw [runPlans] at h
    injection h with h1 h2
    injection h1 with h1
    rw [h1, List.append_nil]
  | cons plan rest ih =>
    intro cache log runs runs' cache' log' h
    rw [runPlans] at h
    split at h
    · cases h
    · next run cache1 log1 hpp =>
      have := ih cache1 log1 (runs ++ [run]) runs' cache' log' h
      rw [this, List.map_append]
      have hrp := processPlan_plan t answerer collapser normalizer substituter
        context cache log plan hpp
      simp [hrp]

/-- C4: plan enumeration over the `k` non-root node ids yields exactly
`2 ^ k` pairwise-distinct plans when `include_empty` is true — each a
duplicate-free subset of the non-root ids — and exactly `2 ^ k - 1` when
false, the empty cut set alone being omitted; the order is a fixed
function of the tree (the embedding is pure, hence stable across runs);
and a successful `run_consistency_check` returns exactly one `RunRecord`
per enumerated plan, in enumeration order. -/
theorem c4_plan_enumeration (t : ToQ) (hnd : t.KeysNodup)
    (hroot : t.root_id ∈ t.keys) :
    (enumerate_collapse_plans t true).length = 2 ^ (t.nodes.length - 1) ∧
    (enumerate_collapse_plans t false).length =
      2 ^ (t.nodes.length - 1) - 1 ∧
    (∀ b, (enumerate_collapse_plans t b).Nodup) ∧
    (∀ b, ∀ p ∈ enumerate_collapse_plans t b,
      p.cut_edges.Nodup ∧ ∀ c ∈ p.cut_edges, c ∈ t.keys ∧ c ≠ t.root_id) ∧
    (enumerate_collapse_plans t false =
      (enumerate_collapse_plans t true).filter
        (fun p => p.cut_edges ≠ [])) ∧
    ∀ answerer collapser normalizer substituter context plan_opts cache
      report cache' log',
      run_consistency_check t answerer collapser normalizer substituter
          context plan_opts cache = (.ok report, cache', log') →
      report.runs.map RunRecord.plan =
        enumerate_collapse_plans t (includeEmptyOpt plan_opts) := by
  obtain ⟨hlen, hnrnd, hnrmem⟩ := nonRootIds_spec t hnd hroot
  set nonRoot := sortInts ((t.keys.filter (fun k => k ≠ t.root_id)).dedup)
    with hnr
  have hmkinj : Function.Injective CollapsePlan.mk := fun a b h => by
    injection h
  have hplnd : (nonRoot.sublists.map CollapsePlan.mk).Nodup :=
    (List.nodup_sublists.mpr hnrnd).map hmkinj
  have hpltrue : enumerate_collapse_plans t true =
      nonRoot.sublists.map CollapsePlan.mk := rfl
  have hplfalse : enumerate_collapse_plans t false =
      (nonRoot.sublists.map CollapsePlan.mk).filter
        (fun p => p.cut_edges ≠ []) := rfl
  have hlentrue : (enumerate_collapse_plans t true).length =
      2 ^ (t.nodes.length - 1) := by
    rw [hpltrue, List.length_map, List.length_sublists, hlen]
  refine ⟨hlentrue, ?_, ?_, ?_, ?_, ?_⟩
  · rw [hplfalse, List.map_filter]
    have hcongr : nonRoot.sublists.filter
        ((fun p : CollapsePlan => p.cut_edges ≠ []) ∘ CollapsePlan.mk) =
        nonRoot.sublists.filter (fun s => s ≠ []) := by
      apply List.filter_congr
      intro s hs
      rfl
    rw [hcongr, List.length_map,
      length_filter_ne (List.nodup_sublists.mpr hnrnd)
        (List.mem_sublists.mpr (List.nil_sublist _)),
      List.length_sublists, hlen]
  · intro b
    cases b
    · rw [hplfalse]
      exact hplnd.filter _
    · rw [hpltrue]
      exact hplnd
  · intro b p hp
    have hp' : p ∈ nonRoot.sublists.map CollapsePlan.mk := by
      cases b
      · rw [hplfalse] at hp
        exact List.mem_of_mem_filter hp
      · rw [hpltrue] at hp
        exact hp
    rcases List.mem_map.mp hp' with ⟨s, hs, rfl⟩
    have hsub : s.Sublist nonRoot := List.mem_sublists.mp hs
    exact ⟨hsub.nodup hnrnd, fun c hc => hnrmem c (hsub.subset hc)⟩
  · rw [hplfalse, hpltrue]
  · intro answerer collapser normalizer substituter context plan_opts cache
      report cache' log' h
    unfold run_consistency_check at h
    rcases hv : t.validate with e | u <;> simp only [hv] at h
    · simp at h
    · cases u
      rcases hev : evaluate_toq t answerer substituter context
        with ⟨res, calls⟩
      simp only [hev] at h
      rcases res with e | base_trace
      · simp at h
      · rcases hba : base_trace.answer.lookup t.root_id
          with _ | base_root_answer <;> simp only [hba] at h
        · simp at h
        · rcases hrp : runPlans t answerer collapser normalizer substituter
            context (enumerate_collapse_plans t (includeEmptyOpt plan_opts))
            (cache.getD []) [] [] with ⟨rres, cacheF, logF⟩
          simp only [hrp] at h
          rcases rres with e | runs
          · simp at h
          · injection h with h1 h2
            injection h1 with h1
            rw [← h1]
            have := runPlans_map_plan t answerer collapser normalizer
              substituter context _ _ _ [] runs cacheF logF hrp
            simpa using this

/-- Witness for C4 at the concrete three-node tree (two non-root nodes:
four plans with the empty cut set, three without). -/
theorem c4_plan_enumeration_witness :
    (enumerate_collapse_plans tThree true).length =
      2 ^ (tThree.nodes.length - 1) ∧
    (enumerate_collapse_plans tThree false).length =
      2 ^ (tThree.nodes.length - 1) - 1 ∧
    (∀ b, (enumerate_collapse_plans tThree b).Nodup) ∧
    (∀ b, ∀ p ∈ enumerate_collapse_plans tThree b,
      p.cut_edges.Nodup ∧
      ∀ c ∈ p.cut_edges, c ∈ tThree.keys ∧ c ≠ tThree.root_id) ∧
    (enumerate_collapse_plans tThree false =
      (enumerate_collapse_plans tThree true).filter
        (fun p => p.cut_edges ≠ [])) ∧
    ∀ answerer collapser normalizer substituter context plan_opts cache
      report cache' log',
      run_consistency_check tThree answerer collapser normalizer substituter
          context plan_opts cache = (.ok report, cache', log') →
      report.runs.map RunRecord.plan =
        enumerate_collapse_plans tThree (includeEmptyOpt plan_opts) :=
  c4_plan_enumeration tThree (by decide) (by decide)

theorem not_mem_keys_of_lookup_none {α β : Type} [BEq α] [LawfulBEq α]
    {l : List (α × β)} {k : α} (h : l.lookup k = Option.none) :
    k ∉ l.map Prod.fst := by
  induction l with
  | nil => simp
  | cons p rest ih =>
    rcases p with ⟨a, b⟩
    rw [List.lookup] at h
    cases hk : (k == a) with
    | true => rw [hk] at h; cases h
    | false =>
      rw [hk] at h
      rw [List.map_cons, List.mem_cons]
      push_neg
      exact ⟨by simpa using hk, ih h⟩

theorem collapseRoots_inv (t : ToQ) (plan : CollapsePlan)
    (collapser : Collapser) (context : Option String) :
    ∀ (rs : List NodeId) (cache : Cache) (log : List (NodeId × List NodeId))
      (opens : List (NodeId × OpenToQ)) (cqs : List (NodeId × String))
      (cache' : Cache) (log' : List (NodeId × List NodeId))
      (opens' : List (NodeId × OpenToQ)) (cqs' : List (NodeId × String)),
      collapseRoots t plan collapser context rs cache log opens cqs =
        (cache', log', opens', cqs') →
      (∀ pr ∈ log, cacheKeyOf pr ∈ cache.map Prod.fst) →
      log.Nodup →
      (∀ pr ∈ log', cacheKeyOf pr ∈ cache'.map Prod.fst) ∧
      log'.Nodup ∧
      (∀ k ∈ cache.map Prod.fst, k ∈ cache'.map Prod.fst) ∧
      (∀ pr ∈ log', pr ∈ log ∨ cacheKeyOf pr ∉ cache.map Prod.fst) := by
  intro rs
  induction rs with
  | nil =>
    intro cache log opens cqs cache' log' opens' cqs' h hI hnd
    rw [collapseRoots] at h
    injection h with h1 h
    injection h with h2 h
    subst h1
    subst h2
    exact ⟨hI, hnd, fun k hk => hk, fun pr hpr => Or.inl hpr⟩
  | cons r rest ih =>
    intro cache log opens cqs cache' log' opens' cqs' h hI hnd
    rw [collapseRoots] at h
    cases hlk : cache.lookup
        ("collapsed_question_open_toq", r, (extract_open_toq t plan r).inputs)
      with
    | some cqStr =>
      rw [hlk] at h
      exact ih cache log _ _ cache' log' opens' cqs' h hI hnd
    | none =>
      rw [hlk] at h
      have hnew : ("collapsed_question_open_toq", r,
          (extract_open_toq t plan r).inputs) ∉ cache.map Prod.fst :=
        not_mem_keys_of_lookup_none hlk
      have hrnotlog : (r, (extract_open_toq t plan r).inputs) ∉ log := by
        intro hmem
        exact hnew (hI _ hmem)
      have hI2 : ∀ pr ∈ log ++ [(r, (extract_open_toq t plan r).inputs)],
          cacheKeyOf pr ∈ (cache ++
            [(("collapsed_question_open_toq", r,
              (extract_open_toq t plan r).inputs),
              collapser (extract_open_toq t plan r) context)]).map Prod.fst := by
        intro pr hpr
        rw [List.map_append]
        rcases List.mem_append.mp hpr with hpr | hpr
        · exact List.mem_append.mpr (Or.inl (hI pr hpr))
        · rw [List.mem_singleton] at hpr
          subst hpr
          exact List.mem_append.mpr (Or.inr (by simp [cacheKeyOf]))
      have hnd2 : (log ++ [(r, (extract_open_toq t plan r).inputs)]).Nodup := by
        rw [List.nodup_append]
        exact ⟨hnd, List.nodup_singleton _, by
          intro x hx hx'
          rw [List.mem_singleton] at hx'
          subst hx'
          exact hrnotlog hx⟩
      obtain ⟨hI', hnd', hmono', hnew'⟩ :=
        ih _ _ _ _ cache' log' opens' cqs' h hI2 hnd2
      refine ⟨hI', hnd', ?_, ?_⟩
      · intro k hk
        exact hmono' k (by rw [List.map_append]; exact List.mem_append.mpr (Or.inl hk))
      · intro pr hpr
        rcases hnew' pr hpr with hpr' | hpr'
        · rcases List.mem_append.mp hpr' with hpr'' | hpr''
          · exact Or.inl hpr''
          · rw [List.mem_singleton] at hpr''
            subst hpr''
            exact Or.inr hnew
        · refine Or.inr ?_
          intro hmem
          exact hpr' (by rw [List.map_append]; exact List.mem_append.mpr (Or.inl hmem))

theorem processPlan_inv (t : ToQ) (answerer : Answerer) (collapser : Collapser)
    (normalizer : Option (String → String)) (substituter : Option Substituter)
    (context : Option String) (cache : Cache)
    (log : List (NodeId × List NodeId)) (plan : CollapsePlan)
    (res : Except CErr RunRecord) (cache' : Cache)
    (log' : List (NodeId × List NodeId))
    (h : processPlan t answerer collapser normalizer substituter context
        cache log plan = (res, cache', log'))
    (hI : ∀ pr ∈ log, cacheKeyOf pr ∈ cache.map Prod.fst)
    (hnd : log.Nodup) :
    (∀ pr ∈ log', cacheKeyOf pr ∈ cache'.map Prod.fst) ∧
    log'.Nodup ∧
    (∀ k ∈ cache.map Prod.fst, k ∈ cache'.map Prod.fst) ∧
    (∀ pr ∈ log', pr ∈ log ∨ cacheKeyOf pr ∉ cache.map Prod.fst) := by
  unfold processPlan at h
  rcases hcr : component_roots t plan with e | roots <;> simp only [hcr] at h
  · injection h with h1 h
    injection h with h2 h3
    subst h2
    subst h3
    exact ⟨hI, hnd, fun k hk => hk, fun pr hpr => Or.inl hpr⟩
  · rcases hcc : collapseRoots t plan collapser context roots cache log [] []
      with ⟨cache1, log1, opens, cqs⟩
    simp only [hcc] at h
    have hbase := collapseRoots_inv t plan collapser context roots cache log
      [] [] cache1 log1 opens cqs hcc hI hnd
    have hout : cache' = cache1 ∧ log' = log1 := by
      rcases hap : apply_collapse_plan t plan cqs with e | collapsed0 <;>
        simp only [hap] at h
      · injection h with h1 h
        injection h with h2 h3
        exact ⟨h2.symm, h3.symm⟩
      · rcases hev : evaluate_toq collapsed0.toq answerer substituter context
          with ⟨evres, calls⟩
        simp only [hev] at h
        rcases evres with e | trace
        · injection h with h1 h
          injection h with h2 h3
          exact ⟨h2.symm, h3.symm⟩
        · rcases hla : trace.answer.lookup collapsed0.toq.root_id
            with _ | root_answer <;> simp only [hla] at h
          · injection h with h1 h
            injection h with h2 h3
            exact ⟨h2.symm, h3.symm⟩
          · injection h with h1 h
            injection h with h2 h3
            exact ⟨h2.symm, h3.symm⟩
    rw [hout.1, hout.2]
    exact hbase

theorem runPlans_inv (t : ToQ) (answerer : Answerer) (collapser : Collapser)
    (normalizer : Option (String → String)) (substituter : Option Substituter)
    (context : Option String) :
    ∀ (plans : List CollapsePlan) (cache : Cache)
      (log : List (NodeId × List NodeId)) (runs : List RunRecord)
      (res : Except CErr (List RunRecord)) (cache' : Cache)
      (log' : List (NodeId × List NodeId)),
      runPlans t answerer collapser normalizer substituter context plans
          cache log runs = (res, cache', log') →
      (∀ pr ∈ log, cacheKeyOf pr ∈ cache.map Prod.fst) →
      log.Nodup →
      (∀ pr ∈ log', cacheKeyOf pr ∈ cache'.map Prod.fst) ∧
      log'.Nodup ∧
      (∀ k ∈ cache.map Prod.fst, k ∈ cache'.map Prod.fst) ∧
      (∀ pr ∈ log', pr ∈ log ∨ cacheKeyOf pr ∉ cache.map Prod.fst) := by
  intro plans
  induction plans with
  | nil =>
    intro cache log runs res cache' log' h hI hnd
    rw [runPlans] at h
    injection h with h1 h
    injection h with h2 h3
    subst h2
    subst h3
    exact ⟨hI, hnd, fun k hk => hk, fun pr hpr => Or.inl hpr⟩
  | cons plan rest ih =>
    intro cache log runs res cache' log' h hI hnd
    rw [runPlans] at h
    rcases hpp : processPlan t answerer collapser normalizer substituter
        context cache log plan with ⟨ppres, cache1, log1⟩
    simp only [hpp] at h
    have hstep := processPlan_inv t answerer collapser normalizer substituter
      context cache log plan ppres cache1 log1 hpp hI hnd
    rcases ppres with e | run
    · injection h with h1 h
      injection h with h2 h3
      subst h2
      subst h3
      exact hstep
    · have hrest := ih cache1 log1 (runs ++ [run]) res cache' log' h
        hstep.1 hstep.2.1
      refine ⟨hrest.1, hrest.2.1, ?_, ?_⟩
      · intro k hk
        exact hrest.2.2.1 k (hstep.2.2.1 k hk)
      · intro pr hpr
        rcases hrest.2.2.2 pr hpr with hpr' | hpr'
        · rcases hstep.2.2.2 pr hpr' with h'' | h''
          · exact Or.inl h''
          · exact Or.inr h''
        · refine Or.inr ?_
          intro hmem
          exact hpr' (hstep.2.2.1 _ hmem)

/-- C1: over one whole `run_consistency_check` invocation with a
caller-supplied cache, the collapser is invoked at most once per distinct
`(component root, inputs)` pair — the invocation log (in call order) holds
no duplicate pair — never for a pair already present in the supplied
cache, and every invoked pair ends up cached (so later occurrences, within
this invocation or any later one reusing the returned cache, reuse the
cached collapsed-question string instead of calling the collapser). -/
theorem c1_collapser_at_most_once (t : ToQ) (answerer : Answerer)
    (collapser : Collapser) (normalizer : Option (String → String))
    (substituter : Option Substituter) (context : Option String)
    (plan_opts : Option (List (String × Bool))) (cache0 : Cache)
    (res : Except CErr ConsistencyReport) (cache' : Cache)
    (log' : List (NodeId × List NodeId))
    (h : run_consistency_check t answerer collapser normalizer substituter
        context plan_opts (some cache0) = (res, cache', log')) :
    log'.Nodup ∧
    (∀ pr ∈ log', cacheKeyOf pr ∉ cache0.map Prod.fst) ∧
    (∀ pr ∈ log', cacheKeyOf pr ∈ cache'.map Prod.fst) := by
  unfold run_consistency_check at h
  rcases hv : t.validate with e | u <;> simp only [hv] at h
  · injection h with h1 h
    injection h with h2 h3
    subst h3
    exact ⟨List.nodup_nil, by simp, by simp⟩
  · cases u
    rcases hev : evaluate_toq t answerer substituter context with ⟨evres, calls⟩
    simp only [hev] at h
    rcases evres with e | base_trace
    · injection h with h1 h
      injection h with h2 h3
      subst h3
      exact ⟨List.nodup_nil, by simp, by simp⟩
    · rcases hba : base_trace.answer.lookup t.root_id
        with _ | base_root_answer <;> simp only [hba] at h
      · injection h with h1 h
        injection h with h2 h3
        subst h3
        exact ⟨List.nodup_nil, by simp, by simp⟩
      · rcases hrp : runPlans t answerer collapser normalizer substituter
          context (enumerate_collapse_plans t (includeEmptyOpt plan_opts))
          ((some cache0).getD []) [] [] with ⟨rres, cacheF, logF⟩
        simp only [hrp] at h
        have hinv := runPlans_inv t answerer collapser normalizer substituter
          context _ _ _ [] rres cacheF logF hrp (by simp) List.nodup_nil
        have hout : cache' = cacheF ∧ log' = logF := by
          rcases rres with e | runs <;>
          · injection h with h1 h
            injection h with h2 h3
            exact ⟨h2.symm, h3.symm⟩
        rw [hout.1, hout.2]
        refine ⟨hinv.2.1, ?_, hinv.1⟩
        intro pr hpr
        rcases hinv.2.2.2 pr hpr with h' | h'
        · cases h'
        · simpa using h'

/-- Witness for C1 at the concrete three-node tree with concrete oracles
and an empty supplied cache. -/
theorem c1_collapser_witness :
    ((run_consistency_check tThree (fun _ _ => ⟨"A", Option.none⟩)
        (fun _ _ => "C") Option.none Option.none Option.none Option.none
        (some [])).2.2).Nodup ∧
    (∀ pr ∈ (run_consistency_check tThree (fun _ _ => ⟨"A", Option.none⟩)
        (fun _ _ => "C") Option.none Option.none Option.none Option.none
        (some [])).2.2,
      cacheKeyOf pr ∉ ([] : Cache).map Prod.fst) ∧
    (∀ pr ∈ (run_consistency_check tThree (fun _ _ => ⟨"A", Option.none⟩)
        (fun _ _ => "C") Option.none Option.none Option.none Option.none
        (some [])).2.2,
      cacheKeyOf pr ∈
        ((run_consistency_check tThree (fun _ _ => ⟨"A", Option.none⟩)
          (fun _ _ => "C") Option.none Option.none Option.none Option.none
          (some [])).2.1).map Prod.fst) :=
  c1_collapser_at_most_once tThree (fun _ _ => ⟨"A", Option.none⟩)
    (fun _ _ => "C") Option.none Option.none Option.none Option.none [] _ _ _
    rfl

theorem parentIter_zero_eq {t : ToQ} {n x : NodeId}
    (h : parentIter t 0 n = some x) : n = x := by
  injection h

theorem parentIter_mem_keys (t : ToQ)
    (hpar : ∀ kv ∈ t.nodes, ∀ p, kv.2.parent = some p → p ∈ t.keys) :
    ∀ (i : Nat) (n x : NodeId), n ∈ t.keys → parentIter t i n = some x →
      x ∈ t.keys := by
  intro i
  induction i with
  | zero =>
    intro n x hn h
    rw [← parentIter_zero_eq h]
    exact hn
  | succ i ih =>
    intro n x hn h
    rw [parentIter_succ] at h
    cases hf : t.find n with
    | none => simp [hf] at h
    | some node =>
      simp only [hf] at h
      cases hp : node.parent with
      | none => simp [hp] at h
      | some p =>
        simp only [hp] at h
        exact ih p x (hpar (n, node) (find_mem hf) p hp) h

theorem parentIter_min_bound (t : ToQ) (hnd : t.KeysNodup)
    (hpar : ∀ kv ∈ t.nodes, ∀ p, kv.2.parent = some p → p ∈ t.keys)
    {n : NodeId} (hn : n ∈ t.keys) (hreach : Reach t t.root_id n) :
    ∃ m, m + 1 ≤ t.nodes.length ∧ parentIter t m n = some t.root_id ∧
      ∀ j, j < m → parentIter t j n ≠ some t.root_id := by
  obtain ⟨m1, hm1⟩ := reach_parentIter t hreach hnd
  have hex : ∃ m, parentIter t m n = some t.root_id := ⟨m1, hm1⟩
  have hm₀ : parentIter t (Nat.find hex) n = some t.root_id := Nat.find_spec hex
  have hmin : ∀ j, j < Nat.find hex → parentIter t j n ≠ some t.root_id :=
    fun j hj => Nat.find_min hex hj
  refine ⟨Nat.find hex, ?_, hm₀, hmin⟩
  have hsome : ∀ i, i ≤ Nat.find hex → ∃ x, parentIter t i n = some x := by
    intro i hi
    have hsplit : parentIter t (i + (Nat.find hex - i)) n = some t.root_id := by
      rw [show i + (Nat.find hex - i) = Nat.find hex by omega]
      exact hm₀
    rw [parentIter_add] at hsplit
    cases hx : parentIter t i n with
    | none => rw [hx] at hsplit; cases hsplit
    | some x => exact ⟨x, rfl⟩
  have key : ∀ a b, a < b → b ≤ Nat.find hex →
      (parentIter t a n).getD 0 = (parentIter t b n).getD 0 → False := by
    intro a b hab hbm heq
    obtain ⟨xa, hxa⟩ := hsome a (by omega)
    obtain ⟨xb, hxb⟩ := hsome b hbm
    have hxeq : xa = xb := by
      rw [hxa, hxb] at heq
      simpa using heq
    have h1 : parentIter t (b + (Nat.find hex - b)) n = some t.root_id := by
      rw [show b + (Nat.find hex - b) = Nat.find hex by omega]
      exact hm₀
    rw [parentIter_add, hxb] at h1
    have h1' : parentIter t (Nat.find hex - b) xb = some t.root_id := by
      simpa using h1
    have h2 : parentIter t (a + (Nat.find hex - b)) n = some t.root_id := by
      rw [parentIter_add, hxa]
      simpa [hxeq] using h1'
    exact hmin (a + (Nat.find hex - b)) (by omega) h2
  have hinj : ∀ i ∈ List.range (Nat.find hex + 1),
      ∀ j ∈ List.range (Nat.find hex + 1),
      (parentIter t i n).getD 0 = (parentIter t j n).getD 0 → i = j := by
    intro i hi j hj hij
    rw [List.mem_range] at hi hj
    by_contra hne
    rcases Nat.lt_or_ge i j with hlt | hge
    · exact key i j hlt (by omega) hij
    · exact key j i (by omega) (by omega) hij.symm
  have hnodL : ((List.range (Nat.find hex + 1)).map
      (fun i => (parentIter t i n).getD 0)).Nodup :=
    List.Nodup.map_on hinj (List.nodup_range _)
  have hsub : ∀ x ∈ (List.range (Nat.find hex + 1)).map
      (fun i => (parentIter t i n).getD 0), x ∈ t.keys := by
    intro x hx
    rcases List.mem_map.mp hx with ⟨i, hi, rfl⟩
    rw [List.mem_range] at hi
    obtain ⟨y, hy⟩ := hsome i (by omega)
    rw [hy, Option.getD_some]
    exact parentIter_mem_keys t hpar i n y hn hy
  have h1 : ((List.range (Nat.find hex + 1)).map
      (fun i => (parentIter t i n).getD 0)).toFinset.card = Nat.find hex + 1 := by
    rw [List.toFinset_card_of_nodup hnodL, List.length_map, List.length_range]
  have h2 : ((List.range (Nat.find hex + 1)).map
      (fun i => (parentIter t i n).getD 0)).toFinset ⊆ t.keys.toFinset := by
    intro x hx
    rw [List.mem_toFinset] at hx ⊢
    exact hsub x hx
  have h3 := Finset.card_le_card h2
  have h4 := t.keys.toFinset_card_le
  have h5 : t.keys.length = t.nodes.length := List.length_map _ _
  omega

theorem firstRootUp_spec (t : ToQ) (R : List NodeId) (hR : t.root_id ∈ R) :
    ∀ (fuel m : Nat) (n : NodeId), parentIter t m n = some t.root_id →
      m < fuel →
      ∃ r i, firstRootUp t R fuel n = some r ∧ r ∈ R ∧ i ≤ m ∧
        parentIter t i n = some r ∧
        ∀ j x, j < i → parentIter t j n = some x → x ∉ R := by
  intro fuel
  induction fuel with
  | zero =>
    intro m n _ hm
    omega
  | succ f ih =>
    intro m n hm hmf
    rw [firstRootUp]
    by_cases hnR : n ∈ R
    · rw [if_pos hnR]
      exact ⟨n, 0, rfl, hnR, Nat.zero_le _, rfl, by intro j x hj; omega⟩
    · rw [if_neg hnR]
      cases m with
      | zero =>
        exact absurd ((parentIter_zero_eq hm) ▸ hR) hnR
      | succ m' =>
        rw [parentIter_succ] at hm
        cases hf2 : t.find n with
        | none => simp [hf2] at hm
        | some node =>
          simp only [hf2] at hm
          cases hp : node.parent with
          | none => simp [hp] at hm
          | some p =>
            simp only [hp] at hm
            simp only [hf2, hp]
            obtain ⟨r, i, h1, h2, h3, h4, h5⟩ := ih m' p hm (by omega)
            refine ⟨r, i + 1, h1, h2, by omega, ?_, ?_⟩
            · rw [parentIter_succ]
              simp only [hf2, hp]
              exact h4
            · intro j x hj hx
              cases j with
              | zero => exact (parentIter_zero_eq hx) ▸ hnR
              | succ j' =>
                rw [parentIter_succ] at hx
                simp only [hf2, hp] at hx
                exact h5 j' x (by omega) hx

theorem inComponent_sound (t : ToQ) (cuts : List NodeId) (r : NodeId) :
    ∀ (fuel : Nat) (n : NodeId), inComponent t cuts r fuel n = true →
      ∃ i, i < fuel ∧ parentIter t i n = some r ∧
        ∀ j x, j < i → parentIter t j n = some x → x ∉ cuts ∧ x ≠ r := by
  intro fuel
  induction fuel with
  | zero =>
    intro n h
    rw [inComponent] at h
    cases h
  | succ f ih =>
    intro n h
    rw [inComponent] at h
    by_cases hnr : n = r
    · refine ⟨0, by omega, ?_, by intro j x hj; omega⟩
      rw [hnr]
      rfl
    · rw [if_neg hnr] at h
      by_cases hnc : n ∈ cuts
      · rw [if_pos hnc] at h
        cases h
      · rw [if_neg hnc] at h
        cases hf2 : t.find n with
        | none => simp [hf2] at h
        | some node =>
          simp only [hf2] at h
          cases hp : node.parent with
          | none => simp [hp] at h
          | some p =>
            simp only [hp] at h
            obtain ⟨i, h1, h2, h3⟩ := ih p h
            refine ⟨i + 1, by omega, ?_, ?_⟩
            · rw [parentIter_succ]
              simp only [hf2, hp]
              exact h2
            · intro j x hj hx
              cases j with
              | zero =>
                cases parentIter_zero_eq hx
                exact ⟨hnc, hnr⟩
              | succ j' =>
                rw [parentIter_succ] at hx
                simp only [hf2, hp] at hx
                exact h3 j' x (by omega) hx

theorem inComponent_complete (t : ToQ) (cuts : List NodeId) (r : NodeId) :
    ∀ (fuel i : Nat) (n : NodeId), parentIter t i n = some r →
      (∀ j x, j < i → parentIter t j n = some x → x ∉ cuts ∧ x ≠ r) →
      i < fuel → inComponent t cuts r fuel n = true := by
  intro fuel
  induction fuel with
  | zero =>
    intro i n _ _ h
    omega
  | succ f ih =>
    intro i n hpi hmin hif
    rw [inComponent]
    by_cases hnr : n = r
    · rw [if_pos hnr]
    · rw [if_neg hnr]
      cases i with
      | zero => exact absurd (parentIter_zero_eq hpi) hnr
      | succ i' =>
        have hn0 : n ∉ cuts := (hmin 0 n (by omega) rfl).1
        rw [if_neg hn0]
        rw [parentIter_succ] at hpi
        cases hf2 : t.find n with
        | none => simp [hf2] at hpi
        | some node =>
          simp only [hf2] at hpi
          cases hp : node.parent with
          | none => simp [hp] at hpi
          | some p =>
            simp only [hp] at hpi
            simp only [hf2, hp]
            refine ih i' p hpi ?_ (by omega)
            intro j x hj hx
            refine hmin (j + 1) x (by omega) ?_
            rw [parentIter_succ]
            simp only [hf2, hp]
            exact hx

theorem first_root_unique (t : ToQ)
    (hroot : ∃ rn, t.find t.root_id = some rn ∧ rn.parent = Option.none)
    (cuts : List NodeId) {n r r' : NodeId} {i i' : Nat}
    (hrR : r ∈ t.root_id :: cuts) (hr'R : r' ∈ t.root_id :: cuts)
    (hpi : parentIter t i n = some r)
    (hmin : ∀ j x, j < i → parentIter t j n = some x →
      x ∉ t.root_id :: cuts)
    (hpi' : parentIter t i' n = some r')
    (hmin' : ∀ j x, j < i' → parentIter t j n = some x →
      x ∉ cuts ∧ x ≠ r') :
    r' = r := by
  rcases Nat.lt_trichotomy i' i with hlt | heq | hgt
  · exact absurd hr'R (hmin i' r' hlt hpi')
  · subst heq
    rw [hpi] at hpi'
    injection hpi' with h
    exact h.symm
  · have hstep := hmin' i r hgt hpi
    have hr_root : r = t.root_id := by
      rcases List.mem_cons.mp hrR with h | h
      · exact h
      · exact absurd h hstep.1
    obtain ⟨rn, hfr, hpr⟩ := hroot
    have hnone : parentIter t (i + 1) n = Option.none := by
      rw [parentIter_add, hpi]
      show parentIter t 1 r = Option.none
      rw [parentIter_succ, hr_root, hfr]
      simp only [hpr]
    have hlater : parentIter t i' n = Option.none := by
      rw [show i' = (i + 1) + (i' - (i + 1)) by omega, parentIter_add, hnone]
      rfl
    rw [hlater] at hpi'
    cases hpi'

theorem mem_compMembers (t : ToQ) (cuts : List NodeId) (r n : NodeId) :
    n ∈ compMembers t cuts r ↔
      n ∈ t.keys ∧ inComponent t cuts r (t.nodes.length + 1) n = true := by
  unfold compMembers
  rw [List.mem_filter]

/-- C2: on a valid tree, for any plan whose cut ids are non-root nodes of
the tree, `component_roots` succeeds with exactly the root plus the cut
ids, and the components partition the node set: every node lies in the
component of exactly one component root — namely the first component root
met walking from the node toward the root through parent links, inclusive
of the node itself (`firstRootUp`). -/
theorem c2_component_roots_partition (t : ToQ) (plan : CollapsePlan)
    (hnd : t.KeysNodup) (hval : t.validate = .ok ())
    (hcuts : ∀ c ∈ plan.cut_edges, c ∈ t.keys ∧ c ≠ t.root_id) :
    component_roots t plan = .ok (t.root_id :: plan.cut_edges) ∧
    (∀ x, x ∈ t.root_id :: plan.cut_edges ↔
      x = t.root_id ∨ x ∈ plan.cut_edges) ∧
    ∀ n ∈ t.keys, ∃ r,
      firstRootUp t (t.root_id :: plan.cut_edges) (t.nodes.length + 1) n =
        some r ∧
      r ∈ t.root_id :: plan.cut_edges ∧
      n ∈ compMembers t plan.cut_edges r ∧
      ∀ r' ∈ t.root_id :: plan.cut_edges,
        n ∈ compMembers t plan.cut_edges r' → r' = r := by
  obtain ⟨hrootmem, hkeyid, hpar, hselfpar, hrootnode, huniqueroot, hnocycle,
    hreach⟩ := (validate_ok_iff_wf t hnd).mp hval
  refine ⟨?_, fun x => List.mem_cons, ?_⟩
  · have h1 : t.root_id ∉ plan.cut_edges := fun h => (hcuts _ h).2 rfl
    have h2 : plan.cut_edges.find? (fun c => c ∉ t.keys) = Option.none :=
      List.find?_eq_none.mpr (fun c hc => by
        simpa using (hcuts c hc).1)
    unfold component_roots
    rw [if_neg h1, h2]
  · intro n hn
    obtain ⟨m, hmlen, hm, hminroot⟩ :=
      parentIter_min_bound t hnd hpar hn (hreach n hn)
    obtain ⟨r, i, hfru, hrR, hile, hpi, hminR⟩ :=
      firstRootUp_spec t (t.root_id :: plan.cut_edges)
        (List.mem_cons_self _ _) (t.nodes.length + 1) m n hm (by omega)
    have hic : inComponent t plan.cut_edges r (t.nodes.length + 1) n = true :=
      inComponent_complete t plan.cut_edges r (t.nodes.length + 1) i n hpi
        (fun j x hj hx =>
          ⟨fun hc => hminR j x hj hx (List.mem_cons_of_mem _ hc),
           fun hxr => hminR j x hj hx (hxr ▸ hrR)⟩)
        (by omega)
    refine ⟨r, hfru, hrR,
      (mem_compMembers t plan.cut_edges r n).mpr ⟨hn, hic⟩, ?_⟩
    intro r' hr'R hr'mem
    obtain ⟨hn', hic'⟩ := (mem_compMembers t plan.cut_edges r' n).mp hr'mem
    obtain ⟨i', hi'f, hpi', hmin'⟩ :=
      inComponent_sound t plan.cut_edges r' _ n hic'
    exact first_root_unique t hrootnode plan.cut_edges hrR hr'R hpi hminR
      hpi' hmin'

/-- Witness for C2 at the concrete three-node tree with the single cut
`{1}`. -/
theorem c2_component_partition_witness :
    component_roots tThree ⟨[1]⟩ = .ok (tThree.root_id :: [1]) ∧
    (∀ x, x ∈ tThree.root_id :: [1] ↔ x = tThree.root_id ∨ x ∈ [1]) ∧
    ∀ n ∈ tThree.keys, ∃ r,
      firstRootUp tThree (tThree.root_id :: [1]) (tThree.nodes.length + 1) n =
        some r ∧
      r ∈ tThree.root_id :: [1] ∧
      n ∈ compMembers tThree [1] r ∧
      ∀ r' ∈ tThree.root_id :: [1],
        n ∈ compMembers tThree [1] r' → r' = r :=
  c2_component_roots_partition tThree ⟨[1]⟩ (by decide) (by decide) (by decide)

end OperadicConsistency
